import Mathlib

/-!
# aggrocow: largest minimum distance between cows placed in stalls

A shallow embedding of `src/src/libaggrocow/lib.c` and `src/include/aggrocow.h`.

* `unsigned long int` and `size_t` values are natural numbers below `ULONG = 2 ^ 64`;
  every C operation that can leave that range is reduced modulo `ULONG`.
* Arrays are lists read with `List.getD`; the element count travels separately, as in C.
* The `do ... while` search of `find_largest_min_cow_dist` has no evident bound on its
  number of iterations once `lbound + rbound` wraps, so it is driven by a fuel argument
  and returns `none` when the fuel runs out.
-/

namespace Aggrocow

/-- Modulus of `unsigned long int` arithmetic. -/
def ULONG : Nat := 2 ^ 64

/-! ## Data model (`aggrocow.h`) -/

/-- Return codes of the library, `enum ac_rc`. -/
inductive ac_rc where
  | AC_OK
  | AC_FAIL
  | AC_DATAERR
  | AC_NOINPUT
  | AC_IOERR
  | AC_CONFIG
  | AC_EINVAL
  | AC_OSERR
  deriving DecidableEq, Repr

/-- Completion status of a test set, `enum ac_status`. -/
inductive ac_status where
  | AC_STATUS_OK
  | AC_STATUS_INCOMPLETE
  deriving DecidableEq, Repr

/-- Result of a single test case, `struct ac_test_case_result`. -/
structure ac_test_case_result where
  lmd : Nat
  deriving DecidableEq, Repr

/-- A single test case, `struct ac_test_case`; `tc_stalls` is the pointed-to array. -/
structure ac_test_case where
  tc_nstalls : Nat
  tc_ncows : Nat
  tc_stalls : List Nat
  tc_result : ac_test_case_result
  deriving DecidableEq, Repr

/-- Aggregate result of a test set, `struct ac_test_set_result`. -/
structure ac_test_set_result where
  ntc : Nat
  nptc : Nat
  status : ac_status
  deriving DecidableEq, Repr

/-- A collection of test cases, `struct ac_test_set`. -/
structure ac_test_set where
  ts_ntc : Nat
  ts_result : ac_test_set_result
  ts_tcs : List ac_test_case
  ts_inputpath : String
  deriving DecidableEq, Repr

/-! ## The placement solver -/

/-- The `for (i = 1; i < nstalls; i++)` loop of `can_distribute_cows_at_min_distance`.
The first argument counts the iterations still to run (`nstalls - i`); `ncows_alloc` is
at most `nstalls`, so its increment cannot wrap. -/
def can_distribute_loop (stalls : List Nat) (ncows min_distance : Nat) :
    Nat → Nat → Nat → Nat → Bool
  | 0, _, _, _ => false
  | rem + 1, i, ncows_alloc, prev_stall =>
    let curr_stall := stalls.getD i 0
    if min_distance > (curr_stall + ULONG - prev_stall) % ULONG then
      can_distribute_loop stalls ncows min_distance rem (i + 1) ncows_alloc prev_stall
    else if ncows_alloc + 1 = ncows then
      true
    else
      can_distribute_loop stalls ncows min_distance rem (i + 1) (ncows_alloc + 1) curr_stall

/-- Greedy feasibility check: the first cow goes to `stalls[0]`, every later cow to the
first stall at distance at least `min_distance` from the previous one. -/
def can_distribute_cows_at_min_distance (stalls : List Nat) (nstalls ncows min_distance : Nat) :
    Bool :=
  can_distribute_loop stalls ncows min_distance (nstalls - 1) 1 1 (stalls.getD 0 0)

/-- The `do ... while (lbound < rbound)` loop of `find_largest_min_cow_dist`.
`m` is at most `(ULONG - 1) / 2`, so `m + 1` cannot wrap; `lbound + rbound` and the
final `lbound - 1` can. -/
def find_loop (stalls : List Nat) (nstalls ncows : Nat) : Nat → Nat → Nat → Option Nat
  | 0, _, _ => none
  | fuel + 1, lbound, rbound =>
    let m := (lbound + rbound) % ULONG / 2
    let feasible := can_distribute_cows_at_min_distance stalls nstalls ncows m
    let lbound1 := if feasible = true then m + 1 else lbound
    let rbound1 := if feasible = true then rbound else m
    if lbound1 < rbound1 then find_loop stalls nstalls ncows fuel lbound1 rbound1
    else some ((lbound1 + ULONG - 1) % ULONG)

/-- Binary search for the largest minimum distance; `none` when `fuel` iterations do not
reach `lbound >= rbound`. The read of `stalls[nstalls - 1]` is inside the array for every
case that `ac_test_case_from_parts` accepts (`nstalls >= 1`). -/
def find_largest_min_cow_dist (fuel : Nat) (stalls : List Nat) (nstalls ncows : Nat) :
    Option Nat :=
  find_loop stalls nstalls ncows fuel 0 (stalls.getD (nstalls - 1) 0)

/-! ## Test cases -/

/-- The all-zero `struct ac_test_case` left by `memset(tc, 0, sizeof(*tc))`. -/
def ac_test_case_zero : ac_test_case :=
  { tc_nstalls := 0, tc_ncows := 0, tc_stalls := [], tc_result := { lmd := 0 } }

/-- Static helper `test_case_from_parts`: clear the case, then store the three parts. -/
def test_case_from_parts (nstalls ncows : Nat) (stalls : List Nat) : ac_test_case :=
  { ac_test_case_zero with tc_nstalls := nstalls, tc_ncows := ncows, tc_stalls := stalls }

/-- Public constructor `ac_test_case_from_parts`. The pointer arguments `stalls` and `tc`
are options (`none` is `NULL`); the second component is the memory behind `tc` afterwards. -/
def ac_test_case_from_parts (nstalls ncows : Nat) (stalls : Option (List Nat))
    (tc : Option ac_test_case) : ac_rc × Option ac_test_case :=
  match stalls, tc with
  | some arr, some _ =>
    if nstalls = 0 ∨ ncows = 0 then (ac_rc.AC_EINVAL, tc)
    else if nstalls < ncows then (ac_rc.AC_EINVAL, tc)
    else (ac_rc.AC_OK, some (test_case_from_parts nstalls ncows arr))
  | _, _ => (ac_rc.AC_EINVAL, tc)

/-- Public `ac_test_case_process`: `NULL` is rejected, otherwise the solver result is
stored in `tc_result.lmd`. The outer option is `none` when the solver runs out of fuel. -/
def ac_test_case_process (fuel : Nat) :
    Option ac_test_case → Option (ac_rc × Option ac_test_case)
  | none => some (ac_rc.AC_EINVAL, none)
  | some tc =>
    match find_largest_min_cow_dist fuel tc.tc_stalls tc.tc_nstalls tc.tc_ncows with
    | none => none
    | some v => some (ac_rc.AC_OK, some { tc with tc_result := { tc.tc_result with lmd := v } })

/-! ## Test sets -/

/-- The `for (i = 0; i < ts->ts_ntc; i++)` loop of `ac_test_set_process`; the first
argument counts the iterations still to run. The address `&ts->ts_tcs[i]` is
`ts_tcs.get? i`: a slot that does not exist (as with a `NULL` array) reads as `NULL`.
`nptc` is only ever incremented once per case, so the increment is not reduced. -/
def ac_test_set_process_loop (fuel : Nat) :
    Nat → Nat → ac_test_set → Option (ac_rc × ac_test_set)
  | 0, _, ts => some (ac_rc.AC_OK, ts)
  | rem + 1, i, ts =>
    match ac_test_case_process fuel (ts.ts_tcs.get? i) with
    | none => none
    | some (ret, tc1) =>
      let ts1 : ac_test_set :=
        match tc1 with
        | some c => { ts with ts_tcs := ts.ts_tcs.set i c }
        | none => ts
      if ret ≠ ac_rc.AC_OK then
        some (ret, { ts1 with ts_result := { ts1.ts_result with
                        status := ac_status.AC_STATUS_INCOMPLETE } })
      else
        ac_test_set_process_loop fuel rem (i + 1)
          { ts1 with ts_result := { ts1.ts_result with nptc := ts1.ts_result.nptc + 1 } }

/-- Public `ac_test_set_process`. -/
def ac_test_set_process (fuel : Nat) (ts : ac_test_set) : Option (ac_rc × ac_test_set) :=
  let ts0 : ac_test_set := { ts with ts_result := { ts.ts_result with ntc := ts.ts_ntc } }
  match ac_test_set_process_loop fuel ts0.ts_ntc 0 ts0 with
  | none => none
  | some (ret, ts1) =>
    if ret = ac_rc.AC_OK then
      some (ret, { ts1 with ts_result := { ts1.ts_result with
                      status := ac_status.AC_STATUS_OK } })
    else some (ret, ts1)

/-! ## Run context -/

/-- Callback `ac_test_set_result_handler_t`: what the handler does to the outside world
is a transition on a state `σ`, next to its `int` return value. Handlers are taken to
read, not write, the structures they are handed. -/
abbrev ac_test_set_result_handler_t (σ : Type) :=
  ac_test_set → ac_test_set_result → σ → Int × σ

/-- Callback `ac_test_case_result_handler_t`. -/
abbrev ac_test_case_result_handler_t (σ : Type) :=
  Nat → ac_test_case → ac_test_case_result → σ → Int × σ

/-- Run context, `struct ac_ctx`; a `NULL` handler is `none`. -/
structure ac_ctx (σ : Type) where
  ac_tss : List ac_test_set
  ac_nts : Nat
  ac_ts_result_handler : Option (ac_test_set_result_handler_t σ)
  ac_tc_result_handler : Option (ac_test_case_result_handler_t σ)

/-- Public `ac_ctx_init`: the all-zero context. -/
def ac_ctx_init (σ : Type) : ac_ctx σ :=
  { ac_tss := [], ac_nts := 0, ac_ts_result_handler := none, ac_tc_result_handler := none }

/-- Static helper `ctx_add_test_set`; `alloc_ok` is the outcome of `reallocarray`. -/
def ctx_add_test_set {σ : Type} (alloc_ok : Bool) (ctx : ac_ctx σ) (ts : ac_test_set) :
    ac_rc × ac_ctx σ :=
  if alloc_ok = false then (ac_rc.AC_OSERR, ctx)
  else (ac_rc.AC_OK, { ctx with ac_tss := ctx.ac_tss.take ctx.ac_nts ++ [ts],
                                ac_nts := ctx.ac_nts + 1 })

/-- Public `ac_ctx_add_test_set`. -/
def ac_ctx_add_test_set {σ : Type} (alloc_ok : Bool) :
    Option (ac_ctx σ) → Option ac_test_set → ac_rc × Option (ac_ctx σ)
  | some ctx, some ts =>
    let r := ctx_add_test_set alloc_ok ctx ts
    (r.1, some r.2)
  | ctx, _ => (ac_rc.AC_EINVAL, ctx)

/-- The `for (i = 0; i < ctx->ac_nts; i++)` loop of `ac_ctx_process_test_sets`; the
first argument counts the iterations still to run. A slot beyond `ac_tss` is skipped. -/
def ac_ctx_process_test_sets_loop {σ : Type} (fuel : Nat) :
    Nat → Nat → ac_ctx σ → Option (ac_rc × ac_ctx σ)
  | 0, _, ctx => some (ac_rc.AC_OK, ctx)
  | rem + 1, i, ctx =>
    match ctx.ac_tss.get? i with
    | none => ac_ctx_process_test_sets_loop fuel rem (i + 1) ctx
    | some ts =>
      match ac_test_set_process fuel ts with
      | none => none
      | some (ret, ts1) =>
        let ctx1 : ac_ctx σ := { ctx with ac_tss := ctx.ac_tss.set i ts1 }
        if ret ≠ ac_rc.AC_OK then some (ret, ctx1)
        else ac_ctx_process_test_sets_loop fuel rem (i + 1) ctx1

/-- Public `ac_ctx_process_test_sets`. -/
def ac_ctx_process_test_sets {σ : Type} (fuel : Nat) (ctx : ac_ctx σ) :
    Option (ac_rc × ac_ctx σ) :=
  ac_ctx_process_test_sets_loop fuel ctx.ac_nts 0 ctx

/-- The inner `for (j = 0; j < ts->ts_ntc; j++)` loop of `ac_ctx_process_results`:
the case handler is called with ordinal `j + 1`, its return value is dropped. -/
def ac_ctx_process_results_cases {σ : Type} (h : ac_test_case_result_handler_t σ)
    (ts : ac_test_set) : Nat → Nat → σ → σ
  | 0, _, s => s
  | rem + 1, j, s =>
    match ts.ts_tcs.get? j with
    | none => ac_ctx_process_results_cases h ts rem (j + 1) s
    | some tc => ac_ctx_process_results_cases h ts rem (j + 1) (h (j + 1) tc tc.tc_result s).2

/-- The outer `for (i = 0; i < ctx->ac_nts; i++)` loop of `ac_ctx_process_results`. -/
def ac_ctx_process_results_sets {σ : Type} (hs : ac_test_set_result_handler_t σ)
    (hc : Option (ac_test_case_result_handler_t σ)) (tss : List ac_test_set) :
    Nat → Nat → σ → σ
  | 0, _, s => s
  | rem + 1, i, s =>
    match tss.get? i with
    | none => ac_ctx_process_results_sets hs hc tss rem (i + 1) s
    | some ts =>
      let r := hs ts ts.ts_result s
      if r.1 ≠ 0 then ac_ctx_process_results_sets hs hc tss rem (i + 1) r.2
      else
        match hc with
        | none => ac_ctx_process_results_sets hs hc tss rem (i + 1) r.2
        | some h =>
          ac_ctx_process_results_sets hs hc tss rem (i + 1)
            (ac_ctx_process_results_cases h ts ts.ts_ntc 0 r.2)

/-- Public `ac_ctx_process_results`: the outside world after all callbacks have run. -/
def ac_ctx_process_results {σ : Type} : Option (ac_ctx σ) → σ → σ
  | none, s => s
  | some ctx, s =>
    match ctx.ac_ts_result_handler with
    | none => s
    | some hs => ac_ctx_process_results_sets hs ctx.ac_tc_result_handler ctx.ac_tss ctx.ac_nts 0 s

/-! ## Specification-side notions -/

/-- Number of cows the greedy scan places in the stalls `l` that follow a cow at `prev`,
with the same distance test as `can_distribute_cows_at_min_distance`. -/
def greedy_count (d : Nat) : Nat → List Nat → Nat
  | _, [] => 0
  | prev, c :: l =>
    if d > (c + ULONG - prev) % ULONG then greedy_count d prev l
    else greedy_count d c l + 1

/-- A well-formed stall array: strictly ascending `unsigned long int` values. -/
def ValidStalls (P : List Nat) : Prop :=
  P.Pairwise (· < ·) ∧ ∀ x ∈ P, x < ULONG

instance (P : List Nat) : Decidable (ValidStalls P) := by
  unfold ValidStalls; infer_instance

/-- Distances between all pairs of a choice of stalls. -/
def pairwise_distances : List Nat → List Nat
  | [] => []
  | a :: l => l.map (fun b => if a ≤ b then b - a else a - b) ++ pairwise_distances l

/-- Minimum pairwise distance of a choice of stalls; `none` for fewer than two stalls. -/
def min_pairwise_distance (chosen : List Nat) : Option Nat :=
  (pairwise_distances chosen).min?

/-- Largest minimum distance, as the glossary defines it: the maximum, over all choices
of `k` stalls of `P`, of the minimum pairwise distance between the chosen stalls. -/
def largest_min_distance (P : List Nat) (k : Nat) : Option Nat :=
  ((P.sublistsLen k).filterMap min_pairwise_distance).max?

/-- Minimum over adjacent pairs of `P[i+1] - P[i]`; `none` for fewer than two stalls. -/
def min_adjacent_gap (P : List Nat) : Option Nat :=
  ((P.zip P.tail).map (fun p => p.2 - p.1)).min?

/-- A test case with the solver's value for its own stalls and cows stored in `lmd`. -/
def solved_case (fuel : Nat) (tc : ac_test_case) : ac_test_case :=
  { tc with tc_result := { tc.tc_result with
      lmd := (find_largest_min_cow_dist fuel tc.tc_stalls tc.tc_nstalls tc.tc_ncows).getD 0 } }

/-- A validly constructed test case: what `ac_test_case_from_parts` accepts, for an
array of `tc_nstalls` strictly ascending positions. -/
def ValidCase (tc : ac_test_case) : Prop :=
  tc.tc_nstalls = tc.tc_stalls.length ∧ 1 ≤ tc.tc_ncows ∧ tc.tc_ncows ≤ tc.tc_nstalls ∧
    ValidStalls tc.tc_stalls

instance (tc : ac_test_case) : Decidable (ValidCase tc) := by
  unfold ValidCase; infer_instance

/-- The all-zero aggregate of a freshly built test set. -/
def ac_test_set_result_zero : ac_test_set_result :=
  { ntc := 0, nptc := 0, status := ac_status.AC_STATUS_OK }

/-- A test set with the single case: stalls {0, 2^64 - 1}, 2 cows. -/
def huge_span_set : ac_test_set :=
  { ts_ntc := 1, ts_result := ac_test_set_result_zero,
    ts_tcs := [test_case_from_parts 2 2 [0, 18446744073709551615]], ts_inputpath := "-" }

/-- A test set with the single case: stalls {1, 5}, 2 cows. -/
def one_case_set : ac_test_set :=
  { ts_ntc := 1, ts_result := ac_test_set_result_zero,
    ts_tcs := [test_case_from_parts 2 2 [1, 5]], ts_inputpath := "-" }

/-- A test set that announces one case but has no case array (`ts_tcs` is `NULL`). -/
def broken_set : ac_test_set :=
  { ts_ntc := 1, ts_result := ac_test_set_result_zero, ts_tcs := [], ts_inputpath := "broken" }

/-- A test set with two cases: stalls {1, 2, 4, 8, 9} with 3 cows, stalls {1, 2, 3, 4, 5}
with 2 cows. -/
def two_case_set : ac_test_set :=
  { ts_ntc := 2, ts_result := ac_test_set_result_zero,
    ts_tcs := [test_case_from_parts 5 3 [1, 2, 4, 8, 9], test_case_from_parts 5 2 [1, 2, 3, 4, 5]],
    ts_inputpath := "two" }

/-- A context without handlers holding a good set, the broken set and another good set. -/
def three_set_ctx : ac_ctx Unit :=
  { ac_tss := [one_case_set, broken_set, two_case_set], ac_nts := 3,
    ac_ts_result_handler := none, ac_tc_result_handler := none }

/-- Reporting of the cases of one accepted set, in the words of the specification: the
case handler is invoked for every case in order with a 1-based ordinal, the case and its
result; what it returns is not looked at. -/
def report_cases_spec {σ : Type} (h : ac_test_case_result_handler_t σ)
    (cases : List ac_test_case) (s : σ) : σ :=
  cases.enum.foldl (fun s p => (h (p.1 + 1) p.2 p.2.tc_result s).2) s

/-- Reporting of all sets, in the words of the specification: for each set in order the
set handler is invoked with the set and its aggregate; only if it returns 0, and a case
handler is registered, the cases of that set are reported. -/
def report_results_spec {σ : Type} (hs : ac_test_set_result_handler_t σ)
    (hc : Option (ac_test_case_result_handler_t σ)) (tss : List ac_test_set) (s : σ) : σ :=
  tss.foldl (fun s ts =>
    let r := hs ts ts.ts_result s
    if r.1 = 0 then
      match hc with
      | some h => report_cases_spec h ts.ts_tcs r.2
      | none => r.2
    else r.2) s

/-- One callback invocation with its arguments. -/
inductive callback_event where
  | set_result (ts : ac_test_set) (tsr : ac_test_set_result)
  | case_result (tcord : Nat) (tc : ac_test_case) (tcr : ac_test_case_result)
  deriving DecidableEq, Repr

/-- A set handler that records its invocation and returns `ret ts`. -/
def logging_set_handler (ret : ac_test_set → Int) :
    ac_test_set_result_handler_t (List callback_event) :=
  fun ts tsr log => (ret ts, log ++ [callback_event.set_result ts tsr])

/-- A case handler that records its invocation and returns `ret`. -/
def logging_case_handler (ret : Int) :
    ac_test_case_result_handler_t (List callback_event) :=
  fun tcord tc tcr log => (ret, log ++ [callback_event.case_result tcord tc tcr])

/-- A context with logging handlers: the set handler rejects (returns 1 for) sets of one
case and accepts the others, the case handler returns 7. -/
def logging_ctx : ac_ctx (List callback_event) :=
  { ac_tss := [one_case_set, two_case_set, one_case_set], ac_nts := 3,
    ac_ts_result_handler := some (logging_set_handler (fun ts => if ts.ts_ntc = 1 then 1 else 0)),
    ac_tc_result_handler := some (logging_case_handler 7) }

/-! ## The command line program (`main.c`) -/

/-- Successful exit status, `EXIT_SUCCESS` of `<stdlib.h>`. -/
def EXIT_SUCCESS : Int := 0

/-- Unsuccessful exit status, `EXIT_FAILURE` of `<stdlib.h>`. -/
def EXIT_FAILURE : Int := 1

/-- Command line usage error, `EX_USAGE` of `<sysexits.h>`. -/
def EX_USAGE : Int := 64

/-- The `for (i = 0; i < argc; i++)` loop of `main`, as the value of `rc` when the loop
is left. Each source comes with the return code of `ac_test_set_from_path` and the
return code `ac_ctx_add_test_set` gives if it is reached; the loop breaks at the first
code that is not `AC_OK`. -/
def main_sources_loop : List (ac_rc × ac_rc) → ac_rc
  | [] => ac_rc.AC_OK
  | (rc_path, rc_add) :: rest =>
    if rc_path ≠ ac_rc.AC_OK then rc_path
    else if rc_add ≠ ac_rc.AC_OK then rc_add
    else main_sources_loop rest

/-- Function `main` after option parsing: `sources` has one entry per remaining
argument, `rc_process` is what `ac_ctx_process_test_sets` returns if it is reached.
Without arguments `usage(EX_USAGE)` exits; `ret` is `EXIT_SUCCESS` unless the line
`ret = EXIT_FAILURE` after `ac_ctx_process_test_sets` is reached. -/
def main (sources : List (ac_rc × ac_rc)) (rc_process : ac_rc) : Int :=
  if sources.length = 0 then EX_USAGE
  else if main_sources_loop sources ≠ ac_rc.AC_OK then EXIT_SUCCESS
  else if rc_process ≠ ac_rc.AC_OK then EXIT_FAILURE
  else EXIT_SUCCESS

/-- Successive successful calls of `ac_ctx_add_test_set`, one for each set of `tss`. -/
def add_test_sets {σ : Type} (ctx : ac_ctx σ) (tss : List ac_test_set) : ac_ctx σ :=
  tss.foldl (fun c ts => (ctx_add_test_set true c ts).2) ctx

/-! ## Specification-side notions for the feasibility check -/

/-- An ascending stall array of `unsigned long int` values; equal neighbours allowed. -/
def AscendingStalls (P : List Nat) : Prop :=
  P.Pairwise (· ≤ ·) ∧ ∀ x ∈ P, x < ULONG

instance (P : List Nat) : Decidable (AscendingStalls P) := by
  unfold AscendingStalls; infer_instance

/-- Distance between two stalls. -/
def stall_dist (a b : Nat) : Nat := if a ≤ b then b - a else a - b

/-- There are `k` stalls of `P` whose pairwise distances are all at least `d`. -/
def Placement (P : List Nat) (k d : Nat) : Prop :=
  ∃ S ∈ P.sublistsLen k, S.Pairwise (fun a b => d ≤ stall_dist a b)

instance (P : List Nat) (k d : Nat) : Decidable (Placement P k d) := by
  unfold Placement; infer_instance

/-! ## The search prescribed by the specification, and the bounds the code visits -/

/-- The `while lo < hi` loop of the specification's search: `mid = lo + (hi - lo) / 2`,
`lo = mid + 1` if `mid` is feasible and `hi = mid` otherwise; the value is `lo` at loop
exit. The interval shrinks in every iteration, so `hi - lo` steps are enough. -/
def reference_loop (feasible : Nat → Bool) : Nat → Nat → Nat → Nat
  | 0, lo, _ => lo
  | steps + 1, lo, hi =>
    if lo < hi then
      if feasible (lo + (hi - lo) / 2) = true then
        reference_loop feasible steps (lo + (hi - lo) / 2 + 1) hi
      else reference_loop feasible steps lo (lo + (hi - lo) / 2)
    else lo

/-- The specification's search from `lo = 0` and a given `hi`; the answer `lo - 1` is
taken in unsigned arithmetic, as the specification's numeric semantics has it. -/
def reference_search (feasible : Nat → Bool) (hi : Nat) : Nat :=
  (reference_loop feasible hi 0 hi + ULONG - 1) % ULONG

/-- The pairs `(lbound, rbound)` with which the iterations of the search loop of
`find_largest_min_cow_dist` start, followed by the pair with which the loop is left. -/
def find_loop_bounds (stalls : List Nat) (nstalls ncows : Nat) :
    Nat → Nat → Nat → List (Nat × Nat)
  | 0, _, _ => []
  | fuel + 1, lbound, rbound =>
    let m := (lbound + rbound) % ULONG / 2
    let feasible := can_distribute_cows_at_min_distance stalls nstalls ncows m
    let lbound1 := if feasible = true then m + 1 else lbound
    let rbound1 := if feasible = true then rbound else m
    (lbound, rbound) ::
      (if lbound1 < rbound1 then find_loop_bounds stalls nstalls ncows fuel lbound1 rbound1
       else [(lbound1, rbound1)])

/-! ## Reading a test case (`test_case_from_file`) -/

/-- Comparison function `compar_uli` handed to `qsort`. -/
def compar_uli (x y : Nat) : Int :=
  if x < y then -1
  else if x > y then 1
  else 0

/-- Library function `qsort` of `<stdlib.h>` on an array of `unsigned long int`, by its
contract: the array rearranged so that `compar` is not positive on any element and a
later one. With `compar_uli` there is one such arrangement, so the sorting algorithm
does not matter. -/
def qsort (compar : Nat → Nat → Int) (base : List Nat) : List Nat :=
  base.insertionSort (fun a b => compar a b ≤ 0)

/-- Outcome of reading one line with `fgets` and parsing it with `sscanf`: the parsed
value, a failure that counts as a data error (end of input, or a line that does not
match the format), or a failed read. -/
inductive read_outcome (α : Type) where
  | value (v : α)
  | data_error
  | io_error

/-- The position loop of `test_case_from_file`: `nstalls` lines are read and the loop
gives up with `AC_DATAERR` or `AC_IOERR` at the first line that yields no position;
running out of lines is the end of the input. -/
def read_stalls : Nat → List (read_outcome Nat) → Except ac_rc (List Nat)
  | 0, _ => Except.ok []
  | _ + 1, [] => Except.error ac_rc.AC_DATAERR
  | _ + 1, read_outcome.data_error :: _ => Except.error ac_rc.AC_DATAERR
  | _ + 1, read_outcome.io_error :: _ => Except.error ac_rc.AC_IOERR
  | n + 1, read_outcome.value v :: rest =>
    match read_stalls n rest with
    | Except.error e => Except.error e
    | Except.ok vs => Except.ok (v :: vs)

/-- Static helper `test_case_from_file`. `header` is the outcome of reading the line
with `nstalls` and `ncows`, `alloc_ok` the outcome of `reallocarray`, `lines` the
outcomes of reading the following lines; the positions read are sorted and handed to
`ac_test_case_from_parts`. -/
def test_case_from_file (header : read_outcome (Nat × Nat)) (alloc_ok : Bool)
    (lines : List (read_outcome Nat)) (tc : Option ac_test_case) :
    ac_rc × Option ac_test_case :=
  match header with
  | read_outcome.data_error => (ac_rc.AC_DATAERR, tc)
  | read_outcome.io_error => (ac_rc.AC_IOERR, tc)
  | read_outcome.value (nstalls, ncows) =>
    if alloc_ok = false then (ac_rc.AC_OSERR, tc)
    else
      match read_stalls nstalls lines with
      | Except.error e => (e, tc)
      | Except.ok stalls =>
        ac_test_case_from_parts nstalls ncows (some (qsort compar_uli stalls)) tc

/-- The largest distance at which the feasibility check holds, searched from the last
position downwards; for two or more cows no distance beyond the last position is
feasible, so the search misses nothing. -/
def feasible_lmd (stalls : List Nat) (nstalls ncows : Nat) : Nat :=
  Nat.findGreatest
    (fun d => can_distribute_cows_at_min_distance stalls nstalls ncows d = true)
    (stalls.getD (nstalls - 1) 0)

/-! ## The feasibility check and the greedy count -/

theorem ulong_sub_eq {c prev : Nat} (h1 : prev ≤ c) (h2 : c < ULONG) :
    (c + ULONG - prev) % ULONG = c - prev := by
  have h : c + ULONG - prev = (c - prev) + ULONG := by omega
  rw [h, Nat.add_mod_right]
  exact Nat.mod_eq_of_lt (by omega)

theorem can_distribute_loop_false_of_le (stalls : List Nat) (ncows d : Nat) :
    ∀ (rem i alloc prev : Nat), ncows ≤ alloc →
      can_distribute_loop stalls ncows d rem i alloc prev = false := by
  intro rem
  induction rem with
  | zero => intro i alloc prev _; rfl
  | succ rem ih =>
    intro i alloc prev h
    unfold can_distribute_loop
    simp only
    split_ifs with h1 h2
    · exact ih _ _ _ h
    · omega
    · exact ih _ _ _ (by omega)

theorem can_distribute_loop_iff (stalls : List Nat) (ncows d : Nat) :
    ∀ (rem i alloc prev : Nat), i + rem = stalls.length → alloc < ncows →
      (can_distribute_loop stalls ncows d rem i alloc prev = true ↔
        ncows ≤ alloc + greedy_count d prev (stalls.drop i)) := by
  intro rem
  induction rem with
  | zero =>
    intro i alloc prev hi ha
    have : stalls.drop i = [] := List.drop_eq_nil_of_le (by omega)
    simp [can_distribute_loop, this, greedy_count]
    omega
  | succ rem ih =>
    intro i alloc prev hi ha
    have hlt : i < stalls.length := by omega
    have hdrop : stalls.drop i = stalls[i] :: stalls.drop (i + 1) :=
      List.drop_eq_getElem_cons hlt
    have hget : stalls.getD i 0 = stalls[i] := by
      simp [List.getD, List.getElem?_eq_getElem hlt]
    unfold can_distribute_loop
    simp only [hget]
    rw [hdrop]
    unfold greedy_count
    split_ifs with h1 h2
    · exact ih (i + 1) alloc prev (by omega) ha
    · constructor
      · intro _; omega
      · intro _; rfl
    · rw [ih (i + 1) (alloc + 1) stalls[i] (by omega) (by omega)]
      omega

/-- The feasibility check is the greedy count reaching `ncows`, for two or more cows. -/
theorem can_distribute_iff (P : List Nat) (k d : Nat) (hn : 1 ≤ P.length) (hk : 2 ≤ k) :
    (can_distribute_cows_at_min_distance P P.length k d = true ↔
      k ≤ 1 + greedy_count d (P.getD 0 0) (P.drop 1)) := by
  unfold can_distribute_cows_at_min_distance
  exact can_distribute_loop_iff P k d (P.length - 1) 1 1 (P.getD 0 0) (by omega) (by omega)

/-- With at most one cow requested the feasibility check is never satisfied. -/
theorem can_distribute_false_of_le_one (P : List Nat) (n k d : Nat) (hk : k ≤ 1) :
    can_distribute_cows_at_min_distance P n k d = false := by
  unfold can_distribute_cows_at_min_distance
  exact can_distribute_loop_false_of_le P k d _ _ _ _ hk

/-- Greedy placement with a smaller distance from an earlier start keeps ahead. -/
theorem greedy_count_mono_aux (d d1 : Nat) (hd : d1 ≤ d) :
    ∀ (l : List Nat), l.Pairwise (· < ·) → (∀ x ∈ l, x < ULONG) →
      (∀ prev prev1, prev1 ≤ prev → (∀ x ∈ l, prev ≤ x) →
        greedy_count d prev l ≤ greedy_count d1 prev1 l) ∧
      (∀ prev prev1, prev ≤ prev1 → (∀ x ∈ l, prev1 ≤ x) →
        greedy_count d prev l ≤ greedy_count d1 prev1 l + 1) := by
  intro l
  induction l with
  | nil => intro _ _; simp [greedy_count]
  | cons c l ih =>
    intro hs hb
    rw [List.pairwise_cons] at hs
    have hc : c < ULONG := hb c (List.mem_cons_self _ _)
    have hb1 : ∀ x ∈ l, x < ULONG := fun x hx => hb x (List.mem_cons_of_mem _ hx)
    obtain ⟨ihA, ihB⟩ := ih hs.2 hb1
    have hcl : ∀ x ∈ l, c ≤ x := fun x hx => Nat.le_of_lt (hs.1 x hx)
    constructor
    · intro prev prev1 hp hall
      have hpc : prev ≤ c := hall c (List.mem_cons_self _ _)
      have hall1 : ∀ x ∈ l, prev ≤ x := fun x hx => hall x (List.mem_cons_of_mem _ hx)
      unfold greedy_count
      rw [ulong_sub_eq hpc hc, ulong_sub_eq (le_trans hp hpc) hc]
      split_ifs with h1 h2
      · exact ihA prev prev1 hp hall1
      · exact ihB prev c hpc hcl
      · omega
      · have := ihA c c le_rfl hcl
        omega
    · intro prev prev1 hp hall
      have hpc : prev1 ≤ c := hall c (List.mem_cons_self _ _)
      have hall1 : ∀ x ∈ l, prev1 ≤ x := fun x hx => hall x (List.mem_cons_of_mem _ hx)
      have hall0 : ∀ x ∈ l, prev ≤ x := fun x hx => le_trans hp (hall1 x hx)
      unfold greedy_count
      rw [ulong_sub_eq (le_trans hp hpc) hc, ulong_sub_eq hpc hc]
      split_ifs with h1 h2
      · exact ihB prev prev1 hp hall1
      · have := ihB prev c (le_trans hp hpc) hcl
        omega
      · have := ihA c prev1 hpc hcl
        omega
      · have := ihA c c le_rfl hcl
        omega

/-- The feasibility check is monotone in the distance, for two or more cows. -/
theorem can_distribute_mono_dist (P : List Nat) (hP : ValidStalls P) (k d d1 : Nat)
    (hn : 1 ≤ P.length) (hk : 2 ≤ k) (hd : d1 ≤ d)
    (h : can_distribute_cows_at_min_distance P P.length k d = true) :
    can_distribute_cows_at_min_distance P P.length k d1 = true := by
  rw [can_distribute_iff P k _ hn hk] at h ⊢
  cases P with
  | nil => simp at hn
  | cons a l =>
    obtain ⟨hs, hb⟩ := hP
    rw [List.pairwise_cons] at hs
    simp only [List.getD_cons_zero, List.drop_succ_cons, List.drop_zero] at h ⊢
    have := (greedy_count_mono_aux d d1 hd l hs.2
      (fun x hx => hb x (List.mem_cons_of_mem _ hx))).1 a a le_rfl
      (fun x hx => Nat.le_of_lt (hs.1 x hx))
    omega

/-- The feasibility check is antitone in the number of cows, down to two cows. -/
theorem can_distribute_mono_cows (P : List Nat) (k1 k2 d : Nat)
    (hn : 1 ≤ P.length) (hk1 : 2 ≤ k1) (hk : k1 ≤ k2)
    (h : can_distribute_cows_at_min_distance P P.length k2 d = true) :
    can_distribute_cows_at_min_distance P P.length k1 d = true := by
  rw [can_distribute_iff P _ d hn (by omega)] at h
  rw [can_distribute_iff P _ d hn hk1]
  omega

/-- Distance zero is feasible whenever there are at least as many stalls as cows. -/
theorem greedy_count_zero : ∀ (l : List Nat) (prev : Nat), greedy_count 0 prev l = l.length := by
  intro l
  induction l with
  | nil => intro _; rfl
  | cons c l ih => intro prev; simp [greedy_count, ih]

theorem can_distribute_zero (P : List Nat) (k : Nat) (hk : 2 ≤ k) (hkn : k ≤ P.length) :
    can_distribute_cows_at_min_distance P P.length k 0 = true := by
  rw [can_distribute_iff P k 0 (by omega) hk, greedy_count_zero]
  simp
  omega

/-! ## The search loop -/

theorem ULONG_eq : ULONG = 18446744073709551616 := by decide

/-- One unfolding of the search loop. -/
theorem find_loop_succ (stalls : List Nat) (n k fuel lb rb : Nat) :
    find_loop stalls n k (fuel + 1) lb rb =
      if can_distribute_cows_at_min_distance stalls n k ((lb + rb) % ULONG / 2) = true then
        (if (lb + rb) % ULONG / 2 + 1 < rb then
          find_loop stalls n k fuel ((lb + rb) % ULONG / 2 + 1) rb
         else some (((lb + rb) % ULONG / 2 + 1 + ULONG - 1) % ULONG))
      else
        (if lb < (lb + rb) % ULONG / 2 then
          find_loop stalls n k fuel lb ((lb + rb) % ULONG / 2)
         else some ((lb + ULONG - 1) % ULONG)) := by
  rw [find_loop]
  by_cases h : can_distribute_cows_at_min_distance stalls n k ((lb + rb) % ULONG / 2) = true
  · simp [h]
  · simp [h]

/-- Below `2 ^ 63` the sum `lbound + rbound` never wraps, the interval halves in every
iteration, and the loop ends after at most `j + 1` iterations when it starts with
`rbound - lbound < 2 ^ j`. -/
theorem find_loop_terminates (stalls : List Nat) (n k : Nat) :
    ∀ (j lb rb : Nat), lb ≤ rb → rb < 2 ^ 63 → rb - lb < 2 ^ j →
      ∃ r, ∀ fuel, j + 1 ≤ fuel → find_loop stalls n k fuel lb rb = some r := by
  intro j
  induction j with
  | zero =>
    intro lb rb hle hrb hsz
    have hU := ULONG_eq
    have hm : (lb + rb) % ULONG / 2 = lb := by rw [hU]; omega
    by_cases hc : can_distribute_cows_at_min_distance stalls n k ((lb + rb) % ULONG / 2) = true
    · refine ⟨((lb + rb) % ULONG / 2 + 1 + ULONG - 1) % ULONG, ?_⟩
      intro fuel hf
      obtain ⟨f, rfl⟩ : ∃ f, fuel = f + 1 := ⟨fuel - 1, by omega⟩
      rw [find_loop_succ, if_pos hc, if_neg (by rw [hm]; omega)]
    · refine ⟨(lb + ULONG - 1) % ULONG, ?_⟩
      intro fuel hf
      obtain ⟨f, rfl⟩ : ∃ f, fuel = f + 1 := ⟨fuel - 1, by omega⟩
      rw [find_loop_succ, if_neg hc, if_neg (by rw [hm]; omega)]
  | succ j ih =>
    intro lb rb hle hrb hsz
    have hU := ULONG_eq
    have h2 : 2 ^ (j + 1) = 2 * 2 ^ j := by ring
    have hm : (lb + rb) % ULONG / 2 = (lb + rb) / 2 := by rw [hU]; omega
    by_cases hc : can_distribute_cows_at_min_distance stalls n k ((lb + rb) % ULONG / 2) = true
    · by_cases hlt : (lb + rb) % ULONG / 2 + 1 < rb
      · obtain ⟨r, hr⟩ := ih ((lb + rb) % ULONG / 2 + 1) rb (by omega) hrb (by rw [hm]; omega)
        refine ⟨r, ?_⟩
        intro fuel hf
        obtain ⟨f, rfl⟩ : ∃ f, fuel = f + 1 := ⟨fuel - 1, by omega⟩
        rw [find_loop_succ, if_pos hc, if_pos hlt]
        exact hr f (by omega)
      · refine ⟨((lb + rb) % ULONG / 2 + 1 + ULONG - 1) % ULONG, ?_⟩
        intro fuel hf
        obtain ⟨f, rfl⟩ : ∃ f, fuel = f + 1 := ⟨fuel - 1, by omega⟩
        rw [find_loop_succ, if_pos hc, if_neg hlt]
    · by_cases hlt : lb < (lb + rb) % ULONG / 2
      · obtain ⟨r, hr⟩ := ih lb ((lb + rb) % ULONG / 2) (by omega) (by rw [hm]; omega)
          (by rw [hm]; omega)
        refine ⟨r, ?_⟩
        intro fuel hf
        obtain ⟨f, rfl⟩ : ∃ f, fuel = f + 1 := ⟨fuel - 1, by omega⟩
        rw [find_loop_succ, if_neg hc, if_pos hlt]
        exact hr f (by omega)
      · refine ⟨(lb + ULONG - 1) % ULONG, ?_⟩
        intro fuel hf
        obtain ⟨f, rfl⟩ : ∃ f, fuel = f + 1 := ⟨fuel - 1, by omega⟩
        rw [find_loop_succ, if_neg hc, if_neg hlt]

/-- The solver returns for every array whose last stall is below `2 ^ 63`, within 64
iterations. -/
theorem find_largest_min_cow_dist_terminates (stalls : List Nat) (n k : Nat)
    (h : stalls.getD (n - 1) 0 < 2 ^ 63) :
    ∃ r, ∀ fuel, 64 ≤ fuel → find_largest_min_cow_dist fuel stalls n k = some r := by
  obtain ⟨r, hr⟩ := find_loop_terminates stalls n k 63 0 (stalls.getD (n - 1) 0)
    (Nat.zero_le _) h (by omega)
  exact ⟨r, fun fuel hf => hr fuel hf⟩

/-- What the search loop returns, whenever it returns, for two or more cows: a feasible
distance below the initial right bound `R` whose successor is `R` or infeasible. Holds
with and without wrap-around of `lbound + rbound`. -/
theorem find_loop_post (P : List Nat) (hP : ValidStalls P) (k R : Nat)
    (hk : 2 ≤ k) (hkn : k ≤ P.length) (hR : R < ULONG) :
    ∀ (fuel lb rb r : Nat), lb < rb → rb ≤ R →
      (lb = 0 ∨ can_distribute_cows_at_min_distance P P.length k (lb - 1) = true) →
      (rb = R ∨ can_distribute_cows_at_min_distance P P.length k rb = false) →
      find_loop P P.length k fuel lb rb = some r →
      can_distribute_cows_at_min_distance P P.length k r = true ∧ r < R ∧
        (r + 1 = R ∨ can_distribute_cows_at_min_distance P P.length k (r + 1) = false) := by
  intro fuel
  have hU := ULONG_eq
  have hn : 1 ≤ P.length := by omega
  induction fuel with
  | zero => intro lb rb r _ _ _ _ h; simp [find_loop] at h
  | succ fuel ih =>
    intro lb rb r hlt hrb hlo hhi h
    rw [find_loop_succ] at h
    -- a wrapped midpoint lies below `lbound`, hence is feasible
    have hwrap : ULONG ≤ lb + rb →
        can_distribute_cows_at_min_distance P P.length k ((lb + rb) % ULONG / 2) = true := by
      intro hw
      rcases hlo with h0 | hf
      · omega
      · exact can_distribute_mono_dist P hP k (lb - 1) _ hn hk (by rw [hU] at hw ⊢; omega) hf
    by_cases hc : can_distribute_cows_at_min_distance P P.length k ((lb + rb) % ULONG / 2) = true
    · rw [if_pos hc] at h
      by_cases hl : (lb + rb) % ULONG / 2 + 1 < rb
      · rw [if_pos hl] at h
        exact ih _ rb r hl hrb (Or.inr (by simpa using hc)) hhi h
      · rw [if_neg hl] at h
        have hnw : lb + rb < ULONG := by
          by_contra hw
          rw [hU] at hw hl
          omega
        have hm : (lb + rb) % ULONG / 2 + 1 = rb := by rw [hU] at hnw hl ⊢; omega
        have hr : r = (lb + rb) % ULONG / 2 := by
          have := Option.some.inj h
          rw [hU] at this hm hnw
          rw [hU]
          omega
        subst hr
        refine ⟨hc, by omega, ?_⟩
        rw [hm]
        rcases hhi with h1 | h1
        · exact Or.inl h1
        · exact Or.inr h1
    · rw [if_neg hc] at h
      have hnw : lb + rb < ULONG := by
        by_contra hw
        exact hc (hwrap (by omega))
      have hcf : can_distribute_cows_at_min_distance P P.length k ((lb + rb) % ULONG / 2) = false := by
        simpa using hc
      by_cases hl : lb < (lb + rb) % ULONG / 2
      · rw [if_pos hl] at h
        exact ih lb _ r hl (by rw [hU] at hnw ⊢; omega) hlo (Or.inr hcf) h
      · rw [if_neg hl] at h
        have hm : (lb + rb) % ULONG / 2 = lb := by rw [hU] at hnw hl ⊢; omega
        rw [hm] at hcf
        have hlb : lb ≠ 0 := by
          intro h0
          rw [h0, can_distribute_zero P k hk hkn] at hcf
          exact Bool.noConfusion hcf
        have hr : r = lb - 1 := by
          have := Option.some.inj h
          rw [hU] at this hnw
          omega
        subst hr
        rcases hlo with h0 | hf
        · exact absurd h0 hlb
        · refine ⟨hf, by omega, Or.inr ?_⟩
          rwa [Nat.sub_add_cancel (by omega)]

/-- With at most one cow requested the search can only return `ULONG - 1`
(`lbound` stays 0 and the final `lbound - 1` wraps). -/
theorem find_loop_one_cow (stalls : List Nat) (n k : Nat) (hk : k ≤ 1) :
    ∀ (fuel rb r : Nat), find_loop stalls n k fuel 0 rb = some r → r = ULONG - 1 := by
  intro fuel
  induction fuel with
  | zero => intro rb r h; simp [find_loop] at h
  | succ fuel ih =>
    intro rb r h
    rw [find_loop_succ] at h
    have hc := can_distribute_false_of_le_one stalls n k ((0 + rb) % ULONG / 2) hk
    rw [hc] at h
    simp only [Bool.false_eq_true, if_false] at h
    by_cases hl : 0 < (0 + rb) % ULONG / 2
    · rw [if_pos hl] at h
      exact ih _ r h
    · rw [if_neg hl] at h
      have := Option.some.inj h
      rw [ULONG_eq] at this ⊢
      omega

/-! ## Claims about the solver -/

/-- Every value the search returns is an `unsigned long int`. -/
theorem find_loop_lt (stalls : List Nat) (n k : Nat) :
    ∀ (fuel lb rb r : Nat), find_loop stalls n k fuel lb rb = some r → r < ULONG := by
  intro fuel
  have hU : 0 < ULONG := by decide
  induction fuel with
  | zero => intro lb rb r h; simp [find_loop] at h
  | succ fuel ih =>
    intro lb rb r h
    rw [find_loop_succ] at h
    split_ifs at h with h1 h2 h3
    · exact ih _ _ _ h
    · rw [← Option.some.inj h]; exact Nat.mod_lt _ hU
    · exact ih _ _ _ h
    · rw [← Option.some.inj h]; exact Nat.mod_lt _ hU

/-- The last of two or more strictly ascending stalls is positive and in range. -/
theorem last_stall_bounds (P : List Nat) (hP : ValidStalls P) (hn : 2 ≤ P.length) :
    0 < P.getD (P.length - 1) 0 ∧ P.getD (P.length - 1) 0 < ULONG := by
  have hlt : P.length - 1 < P.length := by omega
  rw [List.getD_eq_getElem P 0 hlt]
  constructor
  · have := List.pairwise_iff_getElem.mp hP.1 0 (P.length - 1) (by omega) hlt (by omega)
    omega
  · exact hP.2 _ (List.getElem_mem _)

/-- What the solver returns, whenever it returns, for two or more cows. -/
theorem find_largest_min_cow_dist_post (P : List Nat) (hP : ValidStalls P) (k : Nat)
    (hk : 2 ≤ k) (hkn : k ≤ P.length) (fuel r : Nat)
    (h : find_largest_min_cow_dist fuel P P.length k = some r) :
    can_distribute_cows_at_min_distance P P.length k r = true ∧
      r < P.getD (P.length - 1) 0 ∧
      (r + 1 = P.getD (P.length - 1) 0 ∨
        can_distribute_cows_at_min_distance P P.length k (r + 1) = false) := by
  obtain ⟨h0, hU⟩ := last_stall_bounds P hP (by omega)
  exact find_loop_post P hP k _ hk hkn hU fuel 0 _ r h0 le_rfl (Or.inl rfl) (Or.inl rfl) h

/-- C1 (code defect): with stalls {0, 5} and 2 cows the solver returns 4, and
`ac_test_case_process` stores 4, while the largest minimum distance is 5 (both cows at
the two stalls). The right bound of the search starts at the last position and is
exclusive, so a distance equal to the last position is never found. -/
theorem C1_solver_misses_full_span :
    (∀ fuel, find_largest_min_cow_dist (fuel + 2) [0, 5] 2 2 = some 4) ∧
    (∀ fuel, ac_test_case_process (fuel + 2) (some (test_case_from_parts 2 2 [0, 5])) =
      some (ac_rc.AC_OK, some { tc_nstalls := 2, tc_ncows := 2, tc_stalls := [0, 5],
                                tc_result := { lmd := 4 } })) ∧
    largest_min_distance [0, 5] 2 = some 5 := by
  refine ⟨fun fuel => rfl, fun fuel => rfl, by decide⟩

/-- C2 (code defect): with a single cow the solver returns `2 ^ 64 - 1`, not
`P[n-1] - P[0]`: for the single stall {7} the claimed value is 0, for stalls {3, 7} it
is 4. The feasibility check never holds for one cow, `lbound` stays 0 and the final
`lbound - 1` wraps. -/
theorem C2_single_cow_wraps :
    (∀ fuel, find_largest_min_cow_dist (fuel + 3) [7] 1 1 = some 18446744073709551615) ∧
    (∀ fuel, find_largest_min_cow_dist (fuel + 3) [3, 7] 2 1 = some 18446744073709551615) := by
  refine ⟨fun fuel => rfl, fun fuel => rfl⟩

/-- C3 (code defect): with stalls {0, 3} and as many cows as stalls the solver returns 2
while the only adjacent gap is 3. -/
theorem C3_all_stalls_misses_gap :
    (∀ fuel, find_largest_min_cow_dist (fuel + 2) [0, 3] 2 2 = some 2) ∧
    min_adjacent_gap [0, 3] = some 3 := by
  refine ⟨fun fuel => rfl, by decide⟩

/-- Where the solver returns, its results are antitone in the number of cows: for
strictly ascending stalls and `k1 ≤ k2 ≤ n`, whatever it returns for `k2` cows is at most
what it returns for `k1` cows, as unsigned values; and when the last stall is below
`2 ^ 63` it does return both values within 64 iterations. -/
theorem solver_antitone_in_cows (P : List Nat) (k1 k2 : Nat) (hP : ValidStalls P)
    (h12 : k1 ≤ k2) (h2 : k2 ≤ P.length) :
    (∀ f1 f2 r1 r2, find_largest_min_cow_dist f1 P P.length k1 = some r1 →
      find_largest_min_cow_dist f2 P P.length k2 = some r2 → r2 ≤ r1) ∧
    (P.getD (P.length - 1) 0 < 2 ^ 63 →
      ∃ r1 r2, r2 ≤ r1 ∧ ∀ fuel, 64 ≤ fuel →
        find_largest_min_cow_dist fuel P P.length k1 = some r1 ∧
        find_largest_min_cow_dist fuel P P.length k2 = some r2) := by
  have hrel : ∀ f1 f2 r1 r2, find_largest_min_cow_dist f1 P P.length k1 = some r1 →
      find_largest_min_cow_dist f2 P P.length k2 = some r2 → r2 ≤ r1 := by
    intro f1 f2 r1 r2 hr1 hr2
    by_cases hk1 : k1 ≤ 1
    · have e1 := find_loop_one_cow P P.length k1 hk1 f1 _ r1 hr1
      have e2 := find_loop_lt P P.length k2 f2 _ _ r2 hr2
      omega
    · have hk1 : 2 ≤ k1 := by omega
      have hn : 1 ≤ P.length := by omega
      obtain ⟨_, _, hs1⟩ := find_largest_min_cow_dist_post P hP k1 hk1 (by omega) f1 r1 hr1
      obtain ⟨hf2, hb2, _⟩ := find_largest_min_cow_dist_post P hP k2 (by omega) h2 f2 r2 hr2
      have hf21 := can_distribute_mono_cows P k1 k2 r2 hn hk1 h12 hf2
      rcases hs1 with hs1 | hs1
      · omega
      · by_contra hlt
        have := can_distribute_mono_dist P hP k1 r2 (r1 + 1) hn hk1 (by omega) hf21
        rw [hs1] at this
        exact Bool.noConfusion this
  refine ⟨hrel, fun hlast => ?_⟩
  obtain ⟨r1, hr1⟩ := find_largest_min_cow_dist_terminates P P.length k1 hlast
  obtain ⟨r2, hr2⟩ := find_largest_min_cow_dist_terminates P P.length k2 hlast
  exact ⟨r1, r2, hrel 64 64 r1 r2 (hr1 64 le_rfl) (hr2 64 le_rfl),
    fun fuel hf => ⟨hr1 fuel hf, hr2 fuel hf⟩⟩

/-- At stalls {1, 2, 4, 8, 9} with 2 and 3 cows the solver returns 8 and 3. -/
theorem solver_antitone_in_cows_example :
    ValidStalls [1, 2, 4, 8, 9] ∧
      find_largest_min_cow_dist 10 [1, 2, 4, 8, 9] 5 2 = some 8 ∧
      find_largest_min_cow_dist 10 [1, 2, 4, 8, 9] 5 3 = some 3 ∧ (3 : Nat) ≤ 8 := by
  have hP : ValidStalls [1, 2, 4, 8, 9] := by decide
  have e1 : find_largest_min_cow_dist 10 [1, 2, 4, 8, 9] 5 2 = some 8 := by decide
  have e2 : find_largest_min_cow_dist 10 [1, 2, 4, 8, 9] 5 3 = some 3 := by decide
  exact ⟨hP, e1, e2, (solver_antitone_in_cows [1, 2, 4, 8, 9] 2 3 hP (by decide)
    (by decide)).1 10 10 8 3 e1 e2⟩

/-- C5: the two worked instances. A case built by `ac_test_case_from_parts` from stalls
{1, 2, 4, 8, 9} and 3 cows is given `lmd = 3` by `ac_test_case_process`, and a case
built from stalls {1, 2, 3, 4, 5} and 2 cows is given `lmd = 4`; both calls return
`AC_OK`, whatever the case memory held before. -/
theorem C5_worked_instances (fuel : Nat) (tc0 : ac_test_case) :
    ac_test_case_process (fuel + 3)
        (ac_test_case_from_parts 5 3 (some [1, 2, 4, 8, 9]) (some tc0)).2 =
      some (ac_rc.AC_OK, some { tc_nstalls := 5, tc_ncows := 3, tc_stalls := [1, 2, 4, 8, 9],
                                tc_result := { lmd := 3 } }) ∧
    ac_test_case_process (fuel + 3)
        (ac_test_case_from_parts 5 2 (some [1, 2, 3, 4, 5]) (some tc0)).2 =
      some (ac_rc.AC_OK, some { tc_nstalls := 5, tc_ncows := 2, tc_stalls := [1, 2, 3, 4, 5],
                                tc_result := { lmd := 4 } }) := by
  exact ⟨rfl, rfl⟩

/-- C6: with non-null `stalls` and `tc`, `ac_test_case_from_parts` returns `AC_EINVAL`
exactly when `nstalls = 0`, `ncows = 0` or `ncows > nstalls` (the case memory is then
left as it was); otherwise it returns `AC_OK` and the case holds the given stall count,
cow count and stall array with a zero result. -/
theorem C6_from_parts_validation (nstalls ncows : Nat) (stalls : List Nat)
    (tc0 : ac_test_case) :
    ac_test_case_from_parts nstalls ncows (some stalls) (some tc0) =
      (if nstalls = 0 ∨ ncows = 0 ∨ nstalls < ncows then (ac_rc.AC_EINVAL, some tc0)
       else (ac_rc.AC_OK, some { tc_nstalls := nstalls, tc_ncows := ncows,
                                 tc_stalls := stalls, tc_result := { lmd := 0 } })) ∧
    ((ac_test_case_from_parts nstalls ncows (some stalls) (some tc0)).1 = ac_rc.AC_EINVAL ↔
      (nstalls = 0 ∨ ncows = 0 ∨ nstalls < ncows)) := by
  unfold ac_test_case_from_parts test_case_from_parts ac_test_case_zero
  by_cases h1 : nstalls = 0 ∨ ncows = 0
  · have h2 : nstalls = 0 ∨ ncows = 0 ∨ nstalls < ncows := by tauto
    simp [h1, h2]
  · by_cases h3 : nstalls < ncows
    · have h2 : nstalls = 0 ∨ ncows = 0 ∨ nstalls < ncows := by tauto
      simp [h1, h2, h3]
    · have h2 : ¬ (nstalls = 0 ∨ ncows = 0 ∨ nstalls < ncows) := by tauto
      simp [h1, h2, h3]

/-! ## Claims about test sets -/

theorem set_take_succ {α : Type} (l : List α) (i : Nat) (x : α) (h : i < l.length) :
    (l.set i x).take (i + 1) = l.take i ++ [x] := by
  induction l generalizing i with
  | nil => simp at h
  | cons a l ih =>
    cases i with
    | zero => simp
    | succ i => simp at h; simp [ih i h]

theorem set_drop_succ {α : Type} (l : List α) (i : Nat) (x : α) :
    (l.set i x).drop (i + 1) = l.drop (i + 1) := by
  induction l generalizing i with
  | nil => simp
  | cons a l ih =>
    cases i with
    | zero => simp
    | succ i => simp [ih i]

/-- The case loop of `ac_test_set_process` when the solver returns on every remaining
case: every remaining case gets its solver value and `nptc` grows by their number. -/
theorem ac_test_set_process_loop_ok (fuel : Nat) :
    ∀ (rem i : Nat) (ts : ac_test_set), i + rem = ts.ts_tcs.length →
      (∀ tc ∈ ts.ts_tcs.drop i,
        (find_largest_min_cow_dist fuel tc.tc_stalls tc.tc_nstalls tc.tc_ncows).isSome) →
      ac_test_set_process_loop fuel rem i ts =
        some (ac_rc.AC_OK, { ts with
          ts_tcs := ts.ts_tcs.take i ++ (ts.ts_tcs.drop i).map (solved_case fuel),
          ts_result := { ts.ts_result with nptc := ts.ts_result.nptc + rem } }) := by
  intro rem
  induction rem with
  | zero =>
    intro i ts hi _
    have : ts.ts_tcs.drop i = [] := List.drop_eq_nil_of_le (by omega)
    have h2 : ts.ts_tcs.take i = ts.ts_tcs := List.take_of_length_le (by omega)
    simp [ac_test_set_process_loop, this, h2]
  | succ rem ih =>
    intro i ts hi hall
    have hlt : i < ts.ts_tcs.length := by omega
    have hdrop : ts.ts_tcs.drop i = ts.ts_tcs[i] :: ts.ts_tcs.drop (i + 1) :=
      List.drop_eq_getElem_cons hlt
    have hget : ts.ts_tcs.get? i = some ts.ts_tcs[i] := by
      rw [List.get?_eq_getElem?, List.getElem?_eq_getElem hlt]
    have hsome := hall ts.ts_tcs[i] (by rw [hdrop]; exact List.mem_cons_self _ _)
    obtain ⟨v, hv⟩ := Option.isSome_iff_exists.mp hsome
    have hsolved : solved_case fuel ts.ts_tcs[i] =
        { ts.ts_tcs[i] with tc_result := { ts.ts_tcs[i].tc_result with lmd := v } } := by
      simp [solved_case, hv]
    rw [ac_test_set_process_loop, hget]
    simp only [ac_test_case_process, hv, ne_eq, not_true_eq_false, if_false]
    rw [ih (i + 1) _ (by simp; omega)
      (by
        intro tc htc
        simp only [set_drop_succ] at htc
        exact hall tc (by rw [hdrop]; exact List.mem_cons_of_mem _ htc))]
    simp only [set_take_succ _ _ _ hlt, set_drop_succ, hdrop, List.map_cons, hsolved,
      List.append_assoc, List.singleton_append]
    rw [Nat.add_assoc, Nat.add_comm 1 rem]

/-- One call of `ac_test_set_process` on a set whose `ts_ntc` cases all get a solver
value: `AC_OK`, `ntc = ts_ntc`, status `AC_STATUS_OK`, every case solved, and `nptc`
larger by `ts_ntc` than before the call. -/
theorem ac_test_set_process_ok (fuel : Nat) (ts : ac_test_set)
    (hlen : ts.ts_ntc = ts.ts_tcs.length)
    (hall : ∀ tc ∈ ts.ts_tcs,
      (find_largest_min_cow_dist fuel tc.tc_stalls tc.tc_nstalls tc.tc_ncows).isSome) :
    ac_test_set_process fuel ts =
      some (ac_rc.AC_OK, { ts with
        ts_tcs := ts.ts_tcs.map (solved_case fuel),
        ts_result := { ntc := ts.ts_ntc, nptc := ts.ts_result.nptc + ts.ts_ntc,
                       status := ac_status.AC_STATUS_OK } }) := by
  unfold ac_test_set_process
  simp only
  rw [ac_test_set_process_loop_ok fuel ts.ts_ntc 0 _ (by simp [hlen]) (by simpa using hall)]
  simp

/-- On stalls {0, 2^64 - 1} two cows fit at every `unsigned long int` distance. -/
theorem can_distribute_huge_span (d : Nat) (hd : d < ULONG) :
    can_distribute_cows_at_min_distance [0, 18446744073709551615] 2 2 d = true := by
  rw [ULONG_eq] at hd
  have h : ¬ d > (18446744073709551615 + ULONG - 0) % ULONG := by
    rw [ULONG_eq]; omega
  unfold can_distribute_cows_at_min_distance can_distribute_loop
  simp only [List.getD_cons_succ, List.getD_cons_zero]
  rw [if_neg h]
  rfl

/-- On stalls {0, 2^64 - 1} with 2 cows the search never leaves the bounds
`lbound = 2 ^ j`, `rbound = 2^64 - 1`: the wrapped midpoint is `2 ^ (j - 1) - 1`, which is
feasible, so `lbound` is halved until it is 1, and from `lbound = 1` the midpoint is 0
and `lbound` stays 1. -/
theorem find_loop_huge_span (j : Nat) (hj : j ≤ 63) :
    ∀ fuel, find_loop [0, 18446744073709551615] 2 2 fuel (2 ^ j) 18446744073709551615 = none := by
  induction j with
  | zero =>
    intro fuel
    induction fuel with
    | zero => rfl
    | succ fuel ih =>
      have hm : (2 ^ 0 + 18446744073709551615) % ULONG / 2 = 0 := by decide
      rw [find_loop_succ, hm, if_pos (can_distribute_huge_span 0 (by decide)),
        if_pos (by decide)]
      exact ih
  | succ j ih =>
    intro fuel
    cases fuel with
    | zero => rfl
    | succ fuel =>
      have hx : 2 ^ j ≤ 2 ^ 62 := Nat.pow_le_pow_right (by decide) (by omega)
      have hx1 : 0 < 2 ^ j := Nat.pow_pos (by decide)
      have h2 : 2 ^ (j + 1) = 2 * 2 ^ j := by ring
      have hm : (2 ^ (j + 1) + 18446744073709551615) % ULONG / 2 + 1 = 2 ^ j := by
        rw [ULONG_eq, h2]; omega
      have hc := can_distribute_huge_span
        ((2 ^ (j + 1) + 18446744073709551615) % ULONG / 2) (by rw [ULONG_eq]; omega)
      rw [find_loop_succ, if_pos hc, hm, if_pos (by omega)]
      exact ih (by omega) fuel

/-- The solver does not return on stalls {0, 2^64 - 1} with 2 cows, whatever the fuel. -/
theorem find_largest_min_cow_dist_huge_span (fuel : Nat) :
    find_largest_min_cow_dist fuel [0, 18446744073709551615] 2 2 = none := by
  cases fuel with
  | zero => rfl
  | succ fuel =>
    have hm : (0 + 18446744073709551615) % ULONG / 2 + 1 = 2 ^ 63 := by decide
    have hc := can_distribute_huge_span
      ((0 + 18446744073709551615) % ULONG / 2) (by decide)
    have hg : [0, 18446744073709551615].getD (2 - 1) 0 = 18446744073709551615 := rfl
    rw [find_largest_min_cow_dist, hg, find_loop_succ, if_pos hc, hm, if_pos (by decide)]
    exact find_loop_huge_span 63 le_rfl fuel

/-- C4 (code defect): on the strictly ascending stalls {0, 2^64 - 1} the solver returns
`2 ^ 64 - 1` for 1 cow, after 64 iterations, and never returns for 2 cows (`lbound`
falls from `2 ^ 63` to 1 and stays there), so for `k1 = 1 ≤ k2 = 2 ≤ n` there is no
result for `k2` to be at most the result for `k1`. -/
theorem C4_no_result_for_more_cows :
    ValidStalls [0, 18446744073709551615] ∧
    (∀ fuel, find_largest_min_cow_dist (fuel + 64) [0, 18446744073709551615] 2 1 =
      some 18446744073709551615) ∧
    (∀ fuel, find_largest_min_cow_dist fuel [0, 18446744073709551615] 2 2 = none) :=
  ⟨by decide, fun fuel => rfl, find_largest_min_cow_dist_huge_span⟩

/-- C7 (code defect): the test set whose single case is stalls {0, 2^64 - 1} with
2 cows is validly constructed (`ac_test_case_from_parts` returns `AC_OK` for it, the
stalls are strictly ascending `unsigned long int` values) and has a zeroed aggregate,
but `ac_test_set_process` never returns on it: no amount of fuel yields a result. -/
theorem C7_set_process_huge_span_never_returns :
    (∀ tc0, ac_test_case_from_parts 2 2 (some [0, 18446744073709551615]) (some tc0) =
      (ac_rc.AC_OK, some (test_case_from_parts 2 2 [0, 18446744073709551615]))) ∧
    (∀ tc ∈ huge_span_set.ts_tcs, ValidCase tc) ∧
    huge_span_set.ts_result = ac_test_set_result_zero ∧
    (∀ fuel, ac_test_set_process fuel huge_span_set = none) := by
  refine ⟨fun tc0 => rfl, by decide, rfl, fun fuel => ?_⟩
  have h := find_largest_min_cow_dist_huge_span fuel
  simp [ac_test_set_process, huge_span_set, ac_test_set_process_loop, ac_test_case_process,
    test_case_from_parts, ac_test_case_zero, h]

/-- Away from wrap-around the claim of C7 holds: for a set of `ts_ntc` validly
constructed cases whose last stalls are below `2 ^ 63` and a zeroed aggregate,
`ac_test_set_process` returns `AC_OK` with `ntc = nptc = ts_ntc`, status
`AC_STATUS_OK`, and every case holding its own solver value. -/
theorem ac_test_set_process_valid (fuel : Nat) (hfuel : 64 ≤ fuel) (ts : ac_test_set)
    (hlen : ts.ts_ntc = ts.ts_tcs.length)
    (hsmall : ∀ tc ∈ ts.ts_tcs, tc.tc_stalls.getD (tc.tc_nstalls - 1) 0 < 2 ^ 63)
    (hzero : ts.ts_result = ac_test_set_result_zero) :
    ac_test_set_process fuel ts =
      some (ac_rc.AC_OK, { ts with
        ts_tcs := ts.ts_tcs.map (solved_case fuel),
        ts_result := { ntc := ts.ts_ntc, nptc := ts.ts_ntc,
                       status := ac_status.AC_STATUS_OK } }) := by
  have hall : ∀ tc ∈ ts.ts_tcs,
      (find_largest_min_cow_dist fuel tc.tc_stalls tc.tc_nstalls tc.tc_ncows).isSome := by
    intro tc htc
    obtain ⟨r, hr⟩ := find_largest_min_cow_dist_terminates tc.tc_stalls tc.tc_nstalls
      tc.tc_ncows (hsmall tc htc)
    rw [hr fuel hfuel]; rfl
  rw [ac_test_set_process_ok fuel ts hlen hall, hzero]
  simp [ac_test_set_result_zero]

/-- C8 (code defect): `ac_test_set_process` assigns `ntc` but only ever increments
`nptc`. Processing the one-case set {stalls {1, 5}, 2 cows} once gives
`ntc = 1, nptc = 1`; processing the resulting set a second time gives
`ntc = 1, nptc = 2`, so `nptc ≤ ntc` fails after two calls. -/
theorem C8_second_call_breaks_invariant (fuel : Nat) :
    (ac_test_set_process (fuel + 2) one_case_set).map (fun r => (r.1, r.2.ts_result)) =
      some (ac_rc.AC_OK, { ntc := 1, nptc := 1, status := ac_status.AC_STATUS_OK }) ∧
    ((ac_test_set_process (fuel + 2) one_case_set).bind
        (fun r => ac_test_set_process (fuel + 2) r.2)).map (fun r => (r.1, r.2.ts_result)) =
      some (ac_rc.AC_OK, { ntc := 1, nptc := 2, status := ac_status.AC_STATUS_OK }) := by
  exact ⟨rfl, rfl⟩

/-! ## Claims about the run context -/

theorem set_eq_take_cons_drop {α : Type} (l : List α) (i : Nat) (x : α) (h : i < l.length) :
    l.set i x = l.take i ++ x :: l.drop (i + 1) := by
  have := List.take_append_drop (i + 1) (l.set i x)
  rw [set_take_succ l i x h, set_drop_succ] at this
  rw [← this]
  simp

/-- The set loop of `ac_ctx_process_test_sets` when every remaining set is processed
with `AC_OK`: every remaining set is replaced by its processed form. -/
theorem ac_ctx_process_test_sets_loop_ok {σ : Type} (fuel : Nat) :
    ∀ (rest done : List ac_test_set) (rem i : Nat) (ctx : ac_ctx σ),
      i + rem = ctx.ac_tss.length → ctx.ac_tss.drop i = rest →
      rest.map (ac_test_set_process fuel) = done.map (fun t => some (ac_rc.AC_OK, t)) →
      ac_ctx_process_test_sets_loop fuel rem i ctx =
        some (ac_rc.AC_OK, { ctx with ac_tss := ctx.ac_tss.take i ++ done }) := by
  intro rest
  induction rest with
  | nil =>
    intro done rem i ctx hi hdrop hmap
    have hd : done = [] := by
      cases done with
      | nil => rfl
      | cons a l => simp at hmap
    have hge : ctx.ac_tss.length ≤ i := by
      by_contra hlt
      have := List.drop_eq_getElem_cons (Nat.lt_of_not_le hlt)
      rw [hdrop] at this
      exact List.noConfusion this
    have hrem : rem = 0 := by omega
    subst hrem
    subst hd
    simp [ac_ctx_process_test_sets_loop, List.take_of_length_le hge]
  | cons p rest ih =>
    intro done rem i ctx hi hdrop hmap
    have hlt : i < ctx.ac_tss.length := by
      by_contra hge
      rw [List.drop_eq_nil_of_le (Nat.le_of_not_lt hge)] at hdrop
      exact List.noConfusion hdrop
    obtain ⟨rem, rfl⟩ : ∃ r, rem = r + 1 := ⟨rem - 1, by omega⟩
    rw [List.drop_eq_getElem_cons hlt] at hdrop
    obtain ⟨hp, hrest⟩ := List.cons.inj hdrop
    cases done with
    | nil => simp at hmap
    | cons p1 done1 =>
      simp only [List.map_cons, List.cons.injEq] at hmap
      obtain ⟨hproc, hmap1⟩ := hmap
      have hget : ctx.ac_tss.get? i = some p := by
        rw [List.get?_eq_getElem?, List.getElem?_eq_getElem hlt, hp]
      rw [ac_ctx_process_test_sets_loop, hget]
      simp only [hproc, ne_eq, not_true_eq_false, if_false]
      rw [ih done1 rem (i + 1) _ (by simp; omega) (by simp [set_drop_succ, hrest]) hmap1]
      simp [set_take_succ _ _ _ hlt]

/-- The set loop of `ac_ctx_process_test_sets` when the sets `pre` are processed with
`AC_OK` and the next set `ts` with another code: the loop returns that code, `pre` and
`ts` are replaced by their processed forms and the sets after `ts` are as they were. -/
theorem ac_ctx_process_test_sets_loop_stop {σ : Type} (fuel : Nat) (ts ts1 : ac_test_set)
    (post : List ac_test_set) (rc : ac_rc)
    (hts : ac_test_set_process fuel ts = some (rc, ts1)) (hrc : rc ≠ ac_rc.AC_OK) :
    ∀ (pre done : List ac_test_set) (rem i : Nat) (ctx : ac_ctx σ),
      i + rem = ctx.ac_tss.length → ctx.ac_tss.drop i = pre ++ ts :: post →
      pre.map (ac_test_set_process fuel) = done.map (fun t => some (ac_rc.AC_OK, t)) →
      ac_ctx_process_test_sets_loop fuel rem i ctx =
        some (rc, { ctx with ac_tss := ctx.ac_tss.take i ++ (done ++ ts1 :: post) }) := by
  intro pre
  induction pre with
  | nil =>
    intro done rem i ctx hi hdrop hmap
    have hd : done = [] := by
      cases done with
      | nil => rfl
      | cons a l => simp at hmap
    subst hd
    have hlt : i < ctx.ac_tss.length := by
      by_contra hge
      rw [List.drop_eq_nil_of_le (Nat.le_of_not_lt hge)] at hdrop
      exact List.noConfusion hdrop
    obtain ⟨rem, rfl⟩ : ∃ r, rem = r + 1 := ⟨rem - 1, by omega⟩
    rw [List.drop_eq_getElem_cons hlt] at hdrop
    obtain ⟨hp, hrest⟩ := List.cons.inj hdrop
    have hget : ctx.ac_tss.get? i = some ts := by
      rw [List.get?_eq_getElem?, List.getElem?_eq_getElem hlt, hp]
    rw [ac_ctx_process_test_sets_loop, hget]
    simp only [hts, ne_eq, hrc, not_false_eq_true, if_true]
    rw [set_eq_take_cons_drop _ _ _ hlt, hrest]
    rfl
  | cons p pre ih =>
    intro done rem i ctx hi hdrop hmap
    have hlt : i < ctx.ac_tss.length := by
      by_contra hge
      rw [List.drop_eq_nil_of_le (Nat.le_of_not_lt hge)] at hdrop
      exact List.noConfusion hdrop
    obtain ⟨rem, rfl⟩ : ∃ r, rem = r + 1 := ⟨rem - 1, by omega⟩
    rw [List.drop_eq_getElem_cons hlt] at hdrop
    obtain ⟨hp, hrest⟩ := List.cons.inj hdrop
    cases done with
    | nil => simp at hmap
    | cons p1 done1 =>
      simp only [List.map_cons, List.cons.injEq] at hmap
      obtain ⟨hproc, hmap1⟩ := hmap
      have hget : ctx.ac_tss.get? i = some p := by
        rw [List.get?_eq_getElem?, List.getElem?_eq_getElem hlt, hp]
      rw [ac_ctx_process_test_sets_loop, hget]
      simp only [hproc, ne_eq, not_true_eq_false, if_false]
      rw [ih done1 rem (i + 1) _ (by simp; omega) (by simp [set_drop_succ, hrest]) hmap1]
      simp [set_take_succ _ _ _ hlt]

/-- C9: `ac_ctx_process_test_sets` runs `ac_test_set_process` over the sets in insertion
order. If every set is processed with `AC_OK` it returns `AC_OK` and every set is
replaced by its processed form. If the sets `pre` are processed with `AC_OK` and the
next set `ts` with another code `rc`, it returns `rc`, `pre` and `ts` hold their
processed forms and every later set is as it was. In both cases the set count and the
two handlers are those of the context before the call. -/
theorem C9_ctx_process_fail_fast {σ : Type} (fuel : Nat) (ctx : ac_ctx σ)
    (hlen : ctx.ac_nts = ctx.ac_tss.length) :
    (∀ done : List ac_test_set,
      ctx.ac_tss.map (ac_test_set_process fuel) = done.map (fun t => some (ac_rc.AC_OK, t)) →
      ac_ctx_process_test_sets fuel ctx =
        some (ac_rc.AC_OK, { ac_tss := done, ac_nts := ctx.ac_nts,
                             ac_ts_result_handler := ctx.ac_ts_result_handler,
                             ac_tc_result_handler := ctx.ac_tc_result_handler }) ∧
      done.length = ctx.ac_nts) ∧
    (∀ (pre post done : List ac_test_set) (ts ts1 : ac_test_set) (rc : ac_rc),
      ctx.ac_tss = pre ++ ts :: post →
      pre.map (ac_test_set_process fuel) = done.map (fun t => some (ac_rc.AC_OK, t)) →
      ac_test_set_process fuel ts = some (rc, ts1) → rc ≠ ac_rc.AC_OK →
      ac_ctx_process_test_sets fuel ctx =
        some (rc, { ac_tss := done ++ ts1 :: post, ac_nts := ctx.ac_nts,
                    ac_ts_result_handler := ctx.ac_ts_result_handler,
                    ac_tc_result_handler := ctx.ac_tc_result_handler }) ∧
      (done ++ ts1 :: post).length = ctx.ac_nts) := by
  constructor
  · intro done hmap
    have h := ac_ctx_process_test_sets_loop_ok fuel ctx.ac_tss done ctx.ac_nts 0 ctx
      (by omega) rfl hmap
    have hl := congrArg List.length hmap
    simp only [List.length_map] at hl
    refine ⟨?_, by omega⟩
    rw [ac_ctx_process_test_sets, h]
    simp
  · intro pre post done ts ts1 rc hsplit hmap hts hrc
    have h := ac_ctx_process_test_sets_loop_stop fuel ts ts1 post rc hts hrc pre done
      ctx.ac_nts 0 ctx (by omega) (by simpa using hsplit) hmap
    have hl := congrArg List.length hmap
    have hl2 := congrArg List.length hsplit
    simp only [List.length_map, List.length_append, List.length_cons] at hl hl2
    refine ⟨?_, by simp only [List.length_append, List.length_cons]; omega⟩
    rw [ac_ctx_process_test_sets, h]
    simp

/-- C9 at a context of three sets whose second set cannot be processed: the call returns
`AC_EINVAL`, the first set is processed, the second is marked incomplete and the third
is left as it was. -/
theorem C9_ctx_process_fail_fast_witness :
    three_set_ctx.ac_nts = three_set_ctx.ac_tss.length ∧
    ac_ctx_process_test_sets 3 three_set_ctx =
      some (ac_rc.AC_EINVAL,
        { ac_tss :=
            [{ one_case_set with
                ts_tcs := [{ test_case_from_parts 2 2 [1, 5] with tc_result := { lmd := 4 } }],
                ts_result := { ntc := 1, nptc := 1, status := ac_status.AC_STATUS_OK } },
             { broken_set with
                ts_result := { ntc := 1, nptc := 0,
                               status := ac_status.AC_STATUS_INCOMPLETE } },
             two_case_set],
          ac_nts := 3, ac_ts_result_handler := none, ac_tc_result_handler := none }) := by
  refine ⟨rfl, ?_⟩
  exact ((C9_ctx_process_fail_fast 3 three_set_ctx rfl).2 [one_case_set] [two_case_set]
    [{ one_case_set with
        ts_tcs := [{ test_case_from_parts 2 2 [1, 5] with tc_result := { lmd := 4 } }],
        ts_result := { ntc := 1, nptc := 1, status := ac_status.AC_STATUS_OK } }]
    broken_set
    { broken_set with
        ts_result := { ntc := 1, nptc := 0, status := ac_status.AC_STATUS_INCOMPLETE } }
    ac_rc.AC_EINVAL rfl (by decide) (by decide) (by decide)).1

/-- The case loop of `ac_ctx_process_results` from index `j` on is the fold of the case
handler over the remaining cases, numbered from `j + 1`. -/
theorem ac_ctx_process_results_cases_eq {σ : Type} (h : ac_test_case_result_handler_t σ)
    (ts : ac_test_set) :
    ∀ (rem j : Nat) (s : σ), j + rem = ts.ts_tcs.length →
      ac_ctx_process_results_cases h ts rem j s =
        ((ts.ts_tcs.drop j).enumFrom j).foldl
          (fun s p => (h (p.1 + 1) p.2 p.2.tc_result s).2) s := by
  intro rem
  induction rem with
  | zero =>
    intro j s hj
    rw [List.drop_eq_nil_of_le (by omega)]
    rfl
  | succ rem ih =>
    intro j s hj
    have hlt : j < ts.ts_tcs.length := by omega
    have hget : ts.ts_tcs.get? j = some ts.ts_tcs[j] := by
      rw [List.get?_eq_getElem?, List.getElem?_eq_getElem hlt]
    rw [ac_ctx_process_results_cases, hget, List.drop_eq_getElem_cons hlt]
    simp only [List.enumFrom_cons, List.foldl_cons]
    exact ih (j + 1) _ (by omega)

/-- The set loop of `ac_ctx_process_results` from index `i` on is the specified report
of the remaining sets. -/
theorem ac_ctx_process_results_sets_eq {σ : Type} (hs : ac_test_set_result_handler_t σ)
    (hc : Option (ac_test_case_result_handler_t σ)) (tss : List ac_test_set)
    (hcases : ∀ ts ∈ tss, ts.ts_ntc = ts.ts_tcs.length) :
    ∀ (rem i : Nat) (s : σ), i + rem = tss.length →
      ac_ctx_process_results_sets hs hc tss rem i s =
        report_results_spec hs hc (tss.drop i) s := by
  intro rem
  induction rem with
  | zero =>
    intro i s hi
    rw [List.drop_eq_nil_of_le (by omega)]
    rfl
  | succ rem ih =>
    intro i s hi
    have hlt : i < tss.length := by omega
    have hget : tss.get? i = some tss[i] := by
      rw [List.get?_eq_getElem?, List.getElem?_eq_getElem hlt]
    have hn := hcases tss[i] (List.getElem_mem _)
    rw [ac_ctx_process_results_sets, hget, List.drop_eq_getElem_cons hlt]
    simp only [report_results_spec, List.foldl_cons]
    by_cases hr : (hs tss[i] tss[i].ts_result s).1 = 0
    · cases hc with
      | none =>
        simp only [hr, ne_eq, not_true_eq_false, if_false, if_true]
        exact ih (i + 1) _ (by omega)
      | some h =>
        simp only [hr, ne_eq, not_true_eq_false, if_false, if_true]
        rw [ih (i + 1) _ (by omega),
          ac_ctx_process_results_cases_eq h tss[i] tss[i].ts_ntc 0 _ (by omega)]
        rfl
    · simp only [hr, ne_eq, not_false_eq_true, if_true, if_false]
      exact ih (i + 1) _ (by omega)

/-- C10: with a registered set handler `hs`, `ac_ctx_process_results` is the specified
report: the sets are visited in insertion order, `hs` is invoked once for each with the
set and its aggregate; exactly when that invocation returns 0 and a case handler is
registered, the case handler is then invoked once for each case of that set in order,
with ordinals 1, 2, ... and the case and its result, and its return value is dropped;
after a non-zero return the report goes on with the next set. -/
theorem C10_results_reporting {σ : Type} (ctx : ac_ctx σ)
    (hs : ac_test_set_result_handler_t σ) (hreg : ctx.ac_ts_result_handler = some hs)
    (hlen : ctx.ac_nts = ctx.ac_tss.length)
    (hcases : ∀ ts ∈ ctx.ac_tss, ts.ts_ntc = ts.ts_tcs.length) (s : σ) :
    ac_ctx_process_results (some ctx) s =
      report_results_spec hs ctx.ac_tc_result_handler ctx.ac_tss s := by
  rw [ac_ctx_process_results, hreg]
  simp only
  rw [ac_ctx_process_results_sets_eq hs _ _ hcases ctx.ac_nts 0 s (by omega)]
  rfl

/-- C10 at a context with logging handlers and three sets, the first and third of one
case (rejected by the set handler) and the second of two cases (accepted): the sequence
of invocations is the set handler on the first set, the set handler on the second set,
the case handler with ordinals 1 and 2 on its cases, the set handler on the third set. -/
theorem C10_results_reporting_witness :
    ac_ctx_process_results (some logging_ctx) [] =
      [callback_event.set_result one_case_set ac_test_set_result_zero,
       callback_event.set_result two_case_set ac_test_set_result_zero,
       callback_event.case_result 1 (test_case_from_parts 5 3 [1, 2, 4, 8, 9]) { lmd := 0 },
       callback_event.case_result 2 (test_case_from_parts 5 2 [1, 2, 3, 4, 5]) { lmd := 0 },
       callback_event.set_result one_case_set ac_test_set_result_zero] :=
  (C10_results_reporting logging_ctx
    (logging_set_handler (fun ts => if ts.ts_ntc = 1 then 1 else 0)) rfl rfl
    (by decide) []).trans (by decide)

/-! ## Further claims about the run context and the program -/

/-- C11: without a registered set handler `ac_ctx_process_results` returns at once: the
outside world is as before for any sets, any set count and any case handler, and a
recording case handler records no invocation. -/
theorem C11_no_set_handler_no_callbacks {σ : Type} (tss : List ac_test_set) (nts : Nat)
    (hc : Option (ac_test_case_result_handler_t σ)) (s : σ) (ret : Int) :
    ac_ctx_process_results
        (some { ac_tss := tss, ac_nts := nts, ac_ts_result_handler := none,
                ac_tc_result_handler := hc }) s = s ∧
    ac_ctx_process_results
        (some { ac_tss := tss, ac_nts := nts, ac_ts_result_handler := none,
                ac_tc_result_handler := some (logging_case_handler ret) }) [] = [] :=
  ⟨rfl, rfl⟩

/-- Adding sets one after the other appends them in that order. -/
theorem add_test_sets_eq {σ : Type} (tss : List ac_test_set) :
    ∀ (ctx : ac_ctx σ), ctx.ac_nts = ctx.ac_tss.length →
      add_test_sets ctx tss =
        { ctx with ac_tss := ctx.ac_tss ++ tss, ac_nts := ctx.ac_nts + tss.length } := by
  induction tss with
  | nil => intro ctx _; simp [add_test_sets]
  | cons ts tss ih =>
    intro ctx hlen
    have hstep : add_test_sets ctx (ts :: tss) =
        add_test_sets (ctx_add_test_set true ctx ts).2 tss := rfl
    rw [hstep, ih _ (by simp [ctx_add_test_set, hlen])]
    simp [ctx_add_test_set, hlen, Nat.add_assoc, Nat.add_comm 1]

/-- C12: for non-null `ctx` and `ts` and a successful allocation, `ac_ctx_add_test_set`
returns `AC_OK` and the context holds its previous sets in their order followed by a
copy of `ts`, one set more than before, with both handlers as they were; hence adding
the sets of a list one by one to a fresh context leaves exactly that list. -/
theorem C12_add_test_set_appends {σ : Type} (ctx : ac_ctx σ) (ts : ac_test_set)
    (hlen : ctx.ac_nts = ctx.ac_tss.length) :
    ac_ctx_add_test_set true (some ctx) (some ts) =
      (ac_rc.AC_OK, some { ac_tss := ctx.ac_tss ++ [ts], ac_nts := ctx.ac_nts + 1,
                           ac_ts_result_handler := ctx.ac_ts_result_handler,
                           ac_tc_result_handler := ctx.ac_tc_result_handler }) ∧
    (∀ tss : List ac_test_set,
      add_test_sets (ac_ctx_init σ) tss =
        { ac_tss := tss, ac_nts := tss.length, ac_ts_result_handler := none,
          ac_tc_result_handler := none }) := by
  constructor
  · simp [ac_ctx_add_test_set, ctx_add_test_set, hlen]
  · intro tss
    rw [add_test_sets_eq tss (ac_ctx_init σ) rfl]
    simp [ac_ctx_init]

/-- C12 at the context of three sets: a fourth set is appended. -/
theorem C12_add_test_set_appends_witness :
    ac_ctx_add_test_set true (some three_set_ctx) (some huge_span_set) =
      (ac_rc.AC_OK, some { ac_tss := [one_case_set, broken_set, two_case_set, huge_span_set],
                           ac_nts := 4, ac_ts_result_handler := none,
                           ac_tc_result_handler := none }) :=
  (C12_add_test_set_appends three_set_ctx huge_span_set rfl).1

/-- The exit status of `main` is `EXIT_FAILURE` only when every source was loaded and
added and `ac_ctx_process_test_sets` failed; it is `EXIT_SUCCESS` in every other run
that has at least one source. -/
theorem main_exit_status (sources : List (ac_rc × ac_rc)) (rc_process : ac_rc)
    (hne : sources ≠ []) :
    main sources rc_process =
      (if main_sources_loop sources = ac_rc.AC_OK ∧ rc_process ≠ ac_rc.AC_OK
       then EXIT_FAILURE else EXIT_SUCCESS) := by
  have hl : sources.length ≠ 0 := by
    intro h; exact hne (List.length_eq_zero.mp h)
  unfold main
  by_cases h1 : main_sources_loop sources = ac_rc.AC_OK
  · by_cases h2 : rc_process = ac_rc.AC_OK
    · simp [hl, h1, h2]
    · simp [hl, h1, h2]
  · simp [hl, h1]

/-- C13 (code defect): when a source fails to parse, `main` breaks out with `ret` still
`EXIT_SUCCESS`: one source whose `ac_test_set_from_path` returns `AC_DATAERR` gives exit
status 0, so does a failing second source, and so does a failing
`ac_ctx_add_test_set`. Only a failure of `ac_ctx_process_test_sets` gives status 1. -/
theorem C13_parse_failure_exits_zero :
    main [(ac_rc.AC_DATAERR, ac_rc.AC_OK)] ac_rc.AC_OK = 0 ∧
    main [(ac_rc.AC_OK, ac_rc.AC_OK), (ac_rc.AC_NOINPUT, ac_rc.AC_OK)] ac_rc.AC_OK = 0 ∧
    main [(ac_rc.AC_OK, ac_rc.AC_OSERR)] ac_rc.AC_OK = 0 ∧
    main [(ac_rc.AC_OK, ac_rc.AC_OK)] ac_rc.AC_EINVAL = 1 ∧
    main [(ac_rc.AC_OK, ac_rc.AC_OK)] ac_rc.AC_OK = 0 := by
  decide

/-! ## Further claims about the feasibility check -/

/-- Greedy placement with a smaller distance from an earlier start keeps ahead, for
ascending stalls with equal neighbours allowed. -/
theorem greedy_count_mono_le (d d1 : Nat) (hd : d1 ≤ d) :
    ∀ (l : List Nat), l.Pairwise (· ≤ ·) → (∀ x ∈ l, x < ULONG) →
      (∀ prev prev1, prev1 ≤ prev → (∀ x ∈ l, prev ≤ x) →
        greedy_count d prev l ≤ greedy_count d1 prev1 l) ∧
      (∀ prev prev1, prev ≤ prev1 → (∀ x ∈ l, prev1 ≤ x) →
        greedy_count d prev l ≤ greedy_count d1 prev1 l + 1) := by
  intro l
  induction l with
  | nil => intro _ _; simp [greedy_count]
  | cons c l ih =>
    intro hs hb
    rw [List.pairwise_cons] at hs
    have hc : c < ULONG := hb c (List.mem_cons_self _ _)
    obtain ⟨ihA, ihB⟩ := ih hs.2 (fun x hx => hb x (List.mem_cons_of_mem _ hx))
    have hcl : ∀ x ∈ l, c ≤ x := hs.1
    constructor
    · intro prev prev1 hp hall
      have hpc : prev ≤ c := hall c (List.mem_cons_self _ _)
      have hall1 : ∀ x ∈ l, prev ≤ x := fun x hx => hall x (List.mem_cons_of_mem _ hx)
      unfold greedy_count
      rw [ulong_sub_eq hpc hc, ulong_sub_eq (le_trans hp hpc) hc]
      split_ifs with h1 h2
      · exact ihA prev prev1 hp hall1
      · exact ihB prev c hpc hcl
      · omega
      · have := ihA c c le_rfl hcl
        omega
    · intro prev prev1 hp hall
      have hpc : prev1 ≤ c := hall c (List.mem_cons_self _ _)
      have hall1 : ∀ x ∈ l, prev1 ≤ x := fun x hx => hall x (List.mem_cons_of_mem _ hx)
      unfold greedy_count
      rw [ulong_sub_eq (le_trans hp hpc) hc, ulong_sub_eq hpc hc]
      split_ifs with h1 h2
      · exact ihB prev prev1 hp hall1
      · have := ihB prev c (le_trans hp hpc) hcl
        omega
      · have := ihA c prev1 hpc hcl
        omega
      · have := ihA c c le_rfl hcl
        omega

/-- C14: for ascending stalls (`n >= 1`), any number of cows and distances `d1 ≤ d`, if
the feasibility check holds at `d` it holds at `d1`. -/
theorem C14_feasibility_monotone (P : List Nat) (hP : AscendingStalls P)
    (hn : 1 ≤ P.length) (k d d1 : Nat) (hd : d1 ≤ d)
    (h : can_distribute_cows_at_min_distance P P.length k d = true) :
    can_distribute_cows_at_min_distance P P.length k d1 = true := by
  by_cases hk : k ≤ 1
  · rw [can_distribute_false_of_le_one P P.length k d hk] at h
    exact Bool.noConfusion h
  · have hk2 : 2 ≤ k := by omega
    rw [can_distribute_iff P k _ hn hk2] at h ⊢
    cases P with
    | nil => simp at hn
    | cons a l =>
      obtain ⟨hs, hb⟩ := hP
      rw [List.pairwise_cons] at hs
      simp only [List.getD_cons_zero, List.drop_succ_cons, List.drop_zero] at h ⊢
      have := (greedy_count_mono_le d d1 hd l hs.2
        (fun x hx => hb x (List.mem_cons_of_mem _ hx))).1 a a le_rfl hs.1
      omega

/-- C14 at stalls {1, 2, 4, 8, 9} with 3 cows: feasible at distance 3, hence at 2. -/
theorem C14_feasibility_monotone_witness :
    can_distribute_cows_at_min_distance [1, 2, 4, 8, 9] 5 3 3 = true ∧
    can_distribute_cows_at_min_distance [1, 2, 4, 8, 9] 5 3 2 = true :=
  ⟨by decide, C14_feasibility_monotone [1, 2, 4, 8, 9] (by decide) (by decide) 3 3 2
    (by decide) (by decide)⟩

/-- The greedy scan picks stalls that are pairwise at least `d` apart, the cow at `prev`
included. -/
theorem greedy_count_sublist (d : Nat) :
    ∀ (l : List Nat), l.Pairwise (· ≤ ·) → (∀ x ∈ l, x < ULONG) →
      ∀ prev, (∀ x ∈ l, prev ≤ x) →
        ∃ S, S.Sublist l ∧ S.length = greedy_count d prev l ∧
          (prev :: S).Pairwise (fun a b => d ≤ b - a) := by
  intro l
  induction l with
  | nil => intro _ _ prev _; exact ⟨[], List.Sublist.refl _, rfl, by simp⟩
  | cons c l ih =>
    intro hs hb prev hall
    rw [List.pairwise_cons] at hs
    have hc : c < ULONG := hb c (List.mem_cons_self _ _)
    have hb1 : ∀ x ∈ l, x < ULONG := fun x hx => hb x (List.mem_cons_of_mem _ hx)
    have hpc : prev ≤ c := hall c (List.mem_cons_self _ _)
    unfold greedy_count
    rw [ulong_sub_eq hpc hc]
    split_ifs with h1
    · obtain ⟨S, hS, hlen, hpw⟩ := ih hs.2 hb1 prev
        (fun x hx => hall x (List.mem_cons_of_mem _ hx))
      exact ⟨S, hS.cons c, hlen, hpw⟩
    · obtain ⟨S, hS, hlen, hpw⟩ := ih hs.2 hb1 c hs.1
      refine ⟨c :: S, hS.cons₂ c, by simp [hlen], ?_⟩
      rw [List.pairwise_cons] at hpw ⊢
      refine ⟨?_, List.pairwise_cons.mpr hpw⟩
      intro x hx
      rcases List.mem_cons.mp hx with rfl | hx
      · omega
      · have := hpw.1 x hx
        omega

/-- No choice of stalls that are pairwise at least `d` apart has more stalls than the
greedy scan places: at most one more in general, and no more when all chosen stalls are
at least `d` after the cow at `prev`. -/
theorem greedy_count_ge_sublist (d : Nat) :
    ∀ (l : List Nat), l.Pairwise (· ≤ ·) → (∀ x ∈ l, x < ULONG) →
      ∀ (prev : Nat) (S : List Nat), (∀ x ∈ l, prev ≤ x) → S.Sublist l →
        S.Pairwise (fun a b => d ≤ b - a) →
        S.length ≤ greedy_count d prev l + 1 ∧
          ((∀ x ∈ S, d ≤ x - prev) → S.length ≤ greedy_count d prev l) := by
  intro l
  induction l with
  | nil =>
    intro _ _ prev S _ hS _
    rw [List.sublist_nil.mp hS]
    simp
  | cons c l ih =>
    intro hs hb prev S hall hS hpw
    rw [List.pairwise_cons] at hs
    have hc : c < ULONG := hb c (List.mem_cons_self _ _)
    have hb1 : ∀ x ∈ l, x < ULONG := fun x hx => hb x (List.mem_cons_of_mem _ hx)
    have hpc : prev ≤ c := hall c (List.mem_cons_self _ _)
    have hall1 : ∀ x ∈ l, prev ≤ x := fun x hx => hall x (List.mem_cons_of_mem _ hx)
    unfold greedy_count
    rw [ulong_sub_eq hpc hc]
    rcases List.sublist_cons_iff.mp hS with hS1 | ⟨S1, rfl, hS1⟩
    · -- the choice does not use stall `c`
      obtain ⟨iB, iA⟩ := ih hs.2 hb1 prev S hall1 hS1 hpw
      obtain ⟨jB, _⟩ := ih hs.2 hb1 c S hs.1 hS1 hpw
      split_ifs with h1
      · exact ⟨iB, iA⟩
      · exact ⟨by omega, fun _ => jB⟩
    · -- the choice uses stall `c`
      rw [List.pairwise_cons] at hpw
      obtain ⟨_, jA⟩ := ih hs.2 hb1 c S1 hs.1 hS1 hpw.2
      have hj := jA hpw.1
      split_ifs with h1
      · have hfar : ∀ x ∈ S1, d ≤ x - prev := by
          intro x hx
          have := hpw.1 x hx
          omega
        obtain ⟨_, iA⟩ := ih hs.2 hb1 prev S1 hall1 hS1 hpw.2
        have hi := iA hfar
        refine ⟨by simp only [List.length_cons]; omega, fun hx => ?_⟩
        have := hx c (List.mem_cons_self _ _)
        omega
      · exact ⟨by simp only [List.length_cons]; omega,
          fun _ => by simp only [List.length_cons]; omega⟩

/-- C15: for ascending stalls, `2 ≤ k ≤ n` and any distance `d`, the feasibility check
holds exactly when there are `k` stalls of `P` whose pairwise distances are all at least
`d`; and such a choice exists exactly when there is a choice of `k` stalls, in ascending
index order, with every two consecutive chosen stalls at least `d` apart. -/
theorem C15_greedy_feasibility_exact (P : List Nat) (hP : AscendingStalls P) (k d : Nat)
    (hk : 2 ≤ k) (hkn : k ≤ P.length) :
    (can_distribute_cows_at_min_distance P P.length k d = true ↔ Placement P k d) ∧
    (Placement P k d ↔
      ∃ S : List Nat, S.Sublist P ∧ S.length = k ∧ S.Chain' (fun a b => d ≤ b - a)) := by
  haveI : IsTrans Nat (fun a b => d ≤ b - a) := ⟨fun a b c h1 h2 => by omega⟩
  -- on an ascending choice the distance of a pair is the difference
  have habs : ∀ S : List Nat, S.Sublist P →
      (S.Pairwise (fun a b => d ≤ stall_dist a b) ↔ S.Pairwise (fun a b => d ≤ b - a)) := by
    intro S hS
    have hasc : S.Pairwise (· ≤ ·) := hP.1.sublist hS
    constructor
    · intro h
      refine List.Pairwise.imp₂ (fun a b h1 h2 => ?_) h hasc
      simp only [stall_dist] at h1
      rw [if_pos h2] at h1
      exact h1
    · intro h
      refine List.Pairwise.imp (fun {a b} h1 => ?_) h
      simp only [stall_dist]
      split_ifs <;> omega
  have hplace : Placement P k d ↔
      ∃ S : List Nat, S.Sublist P ∧ S.length = k ∧ S.Pairwise (fun a b => d ≤ b - a) := by
    unfold Placement
    constructor
    · rintro ⟨S, hmem, hpw⟩
      obtain ⟨hS, hlen⟩ := List.mem_sublistsLen.mp hmem
      exact ⟨S, hS, hlen, (habs S hS).mp hpw⟩
    · rintro ⟨S, hS, hlen, hpw⟩
      exact ⟨S, List.mem_sublistsLen.mpr ⟨hS, hlen⟩, (habs S hS).mpr hpw⟩
  refine ⟨?_, ?_⟩
  · rw [hplace, can_distribute_iff P k d (by omega) hk]
    cases P with
    | nil => simp at hkn; omega
    | cons a l =>
      obtain ⟨hs, hb⟩ := hP
      rw [List.pairwise_cons] at hs
      have hb1 : ∀ x ∈ l, x < ULONG := fun x hx => hb x (List.mem_cons_of_mem _ hx)
      simp only [List.getD_cons_zero, List.drop_succ_cons, List.drop_zero]
      constructor
      · intro hcount
        obtain ⟨S, hS, hlen, hpw⟩ := greedy_count_sublist d l hs.2 hb1 a hs.1
        refine ⟨(a :: S).take k, (List.take_sublist _ _).trans (hS.cons₂ a), ?_,
          hpw.sublist (List.take_sublist _ _)⟩
        rw [List.length_take, List.length_cons, hlen]
        omega
      · rintro ⟨S, hS, hlen, hpw⟩
        rcases List.sublist_cons_iff.mp hS with hS1 | ⟨S1, rfl, hS1⟩
        · have := (greedy_count_ge_sublist d l hs.2 hb1 a S hs.1 hS1 hpw).1
          omega
        · rw [List.pairwise_cons] at hpw
          have := (greedy_count_ge_sublist d l hs.2 hb1 a S1 hs.1 hS1 hpw.2).2 hpw.1
          simp only [List.length_cons] at hlen
          omega
  · rw [hplace]
    constructor
    · rintro ⟨S, hS, hlen, hpw⟩
      exact ⟨S, hS, hlen, List.chain'_iff_pairwise.mpr hpw⟩
    · rintro ⟨S, hS, hlen, hch⟩
      exact ⟨S, hS, hlen, List.chain'_iff_pairwise.mp hch⟩

/-- C15 at stalls {1, 2, 4, 8, 9} with 3 cows: distance 3 is feasible and stalls
{1, 4, 8} are a placement; distance 4 is infeasible and there is no placement. -/
theorem C15_greedy_feasibility_exact_witness :
    (can_distribute_cows_at_min_distance [1, 2, 4, 8, 9] 5 3 3 = true ∧
      Placement [1, 2, 4, 8, 9] 3 3) ∧
    (can_distribute_cows_at_min_distance [1, 2, 4, 8, 9] 5 3 4 = false ∧
      ¬ Placement [1, 2, 4, 8, 9] 3 4) := by
  have h3 := (C15_greedy_feasibility_exact [1, 2, 4, 8, 9] (by decide) 3 3 (by decide)
    (by decide)).1
  have h4 := (C15_greedy_feasibility_exact [1, 2, 4, 8, 9] (by decide) 3 4 (by decide)
    (by decide)).1
  have e3 : can_distribute_cows_at_min_distance [1, 2, 4, 8, 9] 5 3 3 = true := by decide
  have e4 : can_distribute_cows_at_min_distance [1, 2, 4, 8, 9] 5 3 4 = false := by decide
  refine ⟨⟨e3, h3.mp e3⟩, ⟨e4, fun hp => ?_⟩⟩
  have h : can_distribute_cows_at_min_distance [1, 2, 4, 8, 9] 5 3 4 = true := h4.mpr hp
  rw [e4] at h
  exact Bool.noConfusion h

/-- C16 (code defect): with one cow the feasibility check never holds. `ncows_alloc`
starts at 1 and is compared with `ncows` only after an increment, so the check is false
for every array, length and distance; for stalls {3, 7} it is false already at
distance 0. -/
theorem C16_single_cow_never_feasible :
    (∀ (stalls : List Nat) (nstalls d : Nat),
      can_distribute_cows_at_min_distance stalls nstalls 1 d = false) ∧
    can_distribute_cows_at_min_distance [3, 7] 2 1 0 = false ∧
    can_distribute_cows_at_min_distance [7] 1 1 0 = false :=
  ⟨fun stalls nstalls d => can_distribute_false_of_le_one stalls nstalls 1 d le_rfl,
    by decide, by decide⟩

/-! ## Claims about the search -/

theorem reference_loop_done (feasible : Nat → Bool) (steps lo hi : Nat) (h : ¬ lo < hi) :
    reference_loop feasible steps lo hi = lo := by
  cases steps with
  | zero => rfl
  | succ steps => rw [reference_loop, if_neg h]

/-- Below `2 ^ 63`, whatever the loop of the code returns from bounds `lb < rb` is the
answer of the specification's loop from the same bounds. -/
theorem find_loop_eq_reference (stalls : List Nat) (n k : Nat) :
    ∀ (fuel lb rb r steps : Nat), lb < rb → rb < 2 ^ 63 → rb - lb ≤ steps →
      find_loop stalls n k fuel lb rb = some r →
      r = (reference_loop (can_distribute_cows_at_min_distance stalls n k) steps lb rb
            + ULONG - 1) % ULONG := by
  intro fuel
  have hU := ULONG_eq
  induction fuel with
  | zero => intro lb rb r steps _ _ _ h; simp [find_loop] at h
  | succ fuel ih =>
    intro lb rb r steps hlt hrb hsteps h
    have hm : (lb + rb) % ULONG / 2 = lb + (rb - lb) / 2 := by rw [hU]; omega
    obtain ⟨s, rfl⟩ : ∃ s, steps = s + 1 := ⟨steps - 1, by omega⟩
    rw [find_loop_succ, hm] at h
    rw [reference_loop, if_pos hlt]
    by_cases hc : can_distribute_cows_at_min_distance stalls n k (lb + (rb - lb) / 2) = true
    · rw [if_pos hc] at h ⊢
      by_cases hl : lb + (rb - lb) / 2 + 1 < rb
      · rw [if_pos hl] at h
        exact ih _ rb r s hl hrb (by omega) h
      · rw [if_neg hl] at h
        rw [reference_loop_done _ _ _ _ hl]
        exact (Option.some.inj h).symm
    · rw [if_neg hc] at h ⊢
      by_cases hl : lb < lb + (rb - lb) / 2
      · rw [if_pos hl] at h
        exact ih lb _ r s hl (by omega) (by omega) h
      · rw [if_neg hl] at h
        rw [reference_loop_done _ _ _ _ hl]
        exact (Option.some.inj h).symm

/-- C17, as stated, fails: on stalls {1, 5} with 2 cows the code returns 4, while the
search of the specification, started with `hi = P[n-1] - P[0] = 4` and run with the
same feasibility check, answers 3. -/
theorem C17_reference_search_differs :
    (∀ fuel, find_largest_min_cow_dist (fuel + 2) [1, 5] 2 2 = some 4) ∧
    reference_search (can_distribute_cows_at_min_distance [1, 5] 2 2) (5 - 1) = 3 :=
  ⟨fun fuel => rfl, by decide⟩

/-- C17, amended: for strictly ascending stalls (`n >= 1`) whose last position is below
`2 ^ 63` and any number of cows, `find_largest_min_cow_dist` returns, within 64
iterations, the answer of the specification's search started with `lo = 0` and
`hi = P[n-1]` (the last position, not the span) and run with the feasibility check of
the code. -/
theorem C17_search_refines_reference_from_last (P : List Nat) (hP : ValidStalls P)
    (hn : 1 ≤ P.length) (k : Nat) (hlast : P.getD (P.length - 1) 0 < 2 ^ 63)
    (fuel : Nat) (hfuel : 64 ≤ fuel) :
    find_largest_min_cow_dist fuel P P.length k =
      some (reference_search (can_distribute_cows_at_min_distance P P.length k)
        (P.getD (P.length - 1) 0)) := by
  obtain ⟨r, hr⟩ := find_largest_min_cow_dist_terminates P P.length k hlast
  rw [hr fuel hfuel]
  refine congrArg some ?_
  have hr64 := hr 64 le_rfl
  unfold reference_search
  by_cases hR : 0 < P.getD (P.length - 1) 0
  · exact find_loop_eq_reference P P.length k 64 0 _ r _ hR hlast (by omega) hr64
  · have hR0 : P.getD (P.length - 1) 0 = 0 := by omega
    have hn1 : P.length = 1 := by
      by_contra hne
      have := (last_stall_bounds P hP (by omega)).1
      omega
    have hcan : ∀ d, can_distribute_cows_at_min_distance P P.length k d = false := by
      intro d
      rw [hn1]
      rfl
    rw [find_largest_min_cow_dist, hR0, find_loop_succ, hcan] at hr64
    simp only [Bool.false_eq_true, if_false] at hr64
    have hz : ¬ (0 < (0 + 0) % ULONG / 2) := by decide
    rw [if_neg hz] at hr64
    rw [← Option.some.inj hr64, hR0]
    rfl

/-- C17 amended, at stalls {1, 5} with 2 cows: the code and the specification's search
started at `hi = 5` both give 4. -/
theorem C17_search_refines_reference_from_last_witness :
    find_largest_min_cow_dist 64 [1, 5] 2 2 = some 4 ∧
    reference_search (can_distribute_cows_at_min_distance [1, 5] 2 2) 5 = 4 := by
  have h := C17_search_refines_reference_from_last [1, 5] (by decide) (by decide) 2
    (by decide) 64 le_rfl
  have e : find_largest_min_cow_dist 64 [1, 5] 2 2 = some 4 := by decide
  refine ⟨e, ?_⟩
  have h2 : find_largest_min_cow_dist 64 [1, 5] 2 2 =
      some (reference_search (can_distribute_cows_at_min_distance [1, 5] 2 2) 5) := h
  rw [e] at h2
  exact (Option.some.inj h2).symm

/-- One unfolding of the list of visited bounds. -/
theorem find_loop_bounds_succ (stalls : List Nat) (n k fuel lb rb : Nat) :
    find_loop_bounds stalls n k (fuel + 1) lb rb =
      (lb, rb) ::
        (if can_distribute_cows_at_min_distance stalls n k ((lb + rb) % ULONG / 2) = true then
          (if (lb + rb) % ULONG / 2 + 1 < rb then
            find_loop_bounds stalls n k fuel ((lb + rb) % ULONG / 2 + 1) rb
           else [((lb + rb) % ULONG / 2 + 1, rb)])
         else
          (if lb < (lb + rb) % ULONG / 2 then
            find_loop_bounds stalls n k fuel lb ((lb + rb) % ULONG / 2)
           else [(lb, (lb + rb) % ULONG / 2)])) := by
  rw [find_loop_bounds]
  by_cases h : can_distribute_cows_at_min_distance stalls n k ((lb + rb) % ULONG / 2) = true
  · simp [h]
  · simp [h]

/-- Below `2 ^ 63` no iteration of the search loop starts with bounds whose sum wraps. -/
theorem find_loop_bounds_no_wrap (stalls : List Nat) (n k : Nat) :
    ∀ (fuel lb rb : Nat), lb ≤ rb → rb < 2 ^ 63 →
      ∀ p ∈ find_loop_bounds stalls n k fuel lb rb, p.1 + p.2 < ULONG := by
  intro fuel
  have hU := ULONG_eq
  induction fuel with
  | zero => intro lb rb _ _ p hp; simp [find_loop_bounds] at hp
  | succ fuel ih =>
    intro lb rb hle hrb p hp
    have hm : (lb + rb) % ULONG / 2 = (lb + rb) / 2 := by rw [hU]; omega
    rw [find_loop_bounds_succ, hm] at hp
    rcases List.mem_cons.mp hp with rfl | hp
    · show lb + rb < ULONG
      rw [hU]; omega
    · by_cases hc : can_distribute_cows_at_min_distance stalls n k ((lb + rb) / 2) = true
      · rw [if_pos hc] at hp
        by_cases hl : (lb + rb) / 2 + 1 < rb
        · rw [if_pos hl] at hp
          exact ih _ rb (by omega) hrb p hp
        · rw [if_neg hl] at hp
          rw [List.mem_singleton.mp hp]
          show (lb + rb) / 2 + 1 + rb < ULONG
          rw [hU]; omega
      · rw [if_neg hc] at hp
        by_cases hl : lb < (lb + rb) / 2
        · rw [if_pos hl] at hp
          exact ih lb _ (by omega) (by omega) p hp
        · rw [if_neg hl] at hp
          rw [List.mem_singleton.mp hp]
          show lb + (lb + rb) / 2 < ULONG
          rw [hU]; omega

/-- C18 (code defect): wrap-around does occur on valid inputs. For the single stall {7}
with 1 cow the loop is left with `lbound = 0`, so the final `lbound - 1` wraps and the
solver returns `2 ^ 64 - 1`. For stalls {0, 2^64 - 1} with 2 cows the second iteration
starts with `lbound = 2 ^ 63`, `rbound = 2 ^ 64 - 1`, whose sum is not below `2 ^ 64`,
and the third with `lbound = 2 ^ 62`: the distance probed in between, `2 ^ 62 - 1`, was
below `lbound`. -/
theorem C18_wrap_around_occurs :
    find_loop_bounds [7] 1 1 3 0 7 = [(0, 7), (0, 3), (0, 1), (0, 0)] ∧
    find_largest_min_cow_dist 3 [7] 1 1 = some (2 ^ 64 - 1) ∧
    find_loop_bounds [0, 18446744073709551615] 2 2 3 0 18446744073709551615 =
      [(0, 18446744073709551615), (2 ^ 63, 18446744073709551615),
       (2 ^ 62, 18446744073709551615)] ∧
    ¬ (2 ^ 63 + 18446744073709551615 < 2 ^ 64) := by
  refine ⟨by decide, by decide, by decide, by decide⟩

/-- C20 (code defect): on the validly constructed case stalls {0, 2^64 - 1} with 2 cows
the search loop never reaches `lbound >= rbound`: the solver does not return for any
number of iterations, and neither does `ac_test_case_process`. -/
theorem C20_search_does_not_terminate :
    ValidCase (test_case_from_parts 2 2 [0, 18446744073709551615]) ∧
    (∀ fuel, find_largest_min_cow_dist fuel [0, 18446744073709551615] 2 2 = none) ∧
    (∀ fuel, ac_test_case_process fuel
      (some (test_case_from_parts 2 2 [0, 18446744073709551615])) = none) := by
  refine ⟨by decide, find_largest_min_cow_dist_huge_span, fun fuel => ?_⟩
  have h := find_largest_min_cow_dist_huge_span fuel
  simp [ac_test_case_process, test_case_from_parts, ac_test_case_zero, h]

/-! ## Claims about reading a test case -/

/-- The position loop never gives up with `AC_OK`. -/
theorem read_stalls_error_ne_ok : ∀ (n : Nat) (lines : List (read_outcome Nat)) (e : ac_rc),
    read_stalls n lines = Except.error e → e ≠ ac_rc.AC_OK := by
  intro n
  induction n with
  | zero => intro lines e h; simp [read_stalls] at h
  | succ n ih =>
    intro lines e h
    cases lines with
    | nil => simp only [read_stalls] at h; cases h; decide
    | cons x rest =>
      cases x with
      | data_error => simp only [read_stalls] at h; cases h; decide
      | io_error => simp only [read_stalls] at h; cases h; decide
      | value v =>
        simp only [read_stalls] at h
        cases hrec : read_stalls n rest with
        | error e1 =>
          rw [hrec] at h
          cases h
          exact ih rest e hrec
        | ok vs => rw [hrec] at h; cases h

/-- A successful position loop has read exactly the first `nstalls` lines. -/
theorem read_stalls_ok : ∀ (n : Nat) (lines : List (read_outcome Nat)) (stalls : List Nat),
    read_stalls n lines = Except.ok stalls →
      stalls.length = n ∧ lines.take n = stalls.map read_outcome.value := by
  intro n
  induction n with
  | zero =>
    intro lines stalls h
    simp only [read_stalls] at h
    cases h
    simp
  | succ n ih =>
    intro lines stalls h
    cases lines with
    | nil => simp [read_stalls] at h
    | cons x rest =>
      cases x with
      | data_error => simp [read_stalls] at h
      | io_error => simp [read_stalls] at h
      | value v =>
        simp only [read_stalls] at h
        cases hrec : read_stalls n rest with
        | error e => rw [hrec] at h; cases h
        | ok vs =>
          rw [hrec] at h
          cases h
          obtain ⟨h1, h2⟩ := ih rest vs hrec
          simp [h1, h2]

/-- The comparison `compar_uli x y ≤ 0` is the order `x ≤ y`. -/
theorem compar_uli_le_iff (x y : Nat) : compar_uli x y ≤ 0 ↔ x ≤ y := by
  unfold compar_uli
  split_ifs with h1 h2
  · constructor
    · intro _; omega
    · intro _; decide
  · constructor
    · intro h; exact absurd h (by decide)
    · intro _; omega
  · constructor
    · intro _; omega
    · intro _; decide

/-- Sorting with `compar_uli` gives an ascending permutation, strictly ascending when
the positions are distinct. -/
theorem qsort_compar_uli (l : List Nat) :
    (qsort compar_uli l).Perm l ∧ (qsort compar_uli l).Pairwise (· ≤ ·) ∧
      (l.Nodup → (qsort compar_uli l).Pairwise (· < ·)) := by
  haveI : IsTotal Nat (fun a b => compar_uli a b ≤ 0) :=
    ⟨fun a b => by simp only [compar_uli_le_iff]; omega⟩
  haveI : IsTrans Nat (fun a b => compar_uli a b ≤ 0) :=
    ⟨fun a b c h1 h2 => by simp only [compar_uli_le_iff] at h1 h2 ⊢; omega⟩
  have hperm : (qsort compar_uli l).Perm l := List.perm_insertionSort _ l
  have hsorted : (qsort compar_uli l).Pairwise (fun a b => compar_uli a b ≤ 0) :=
    List.sorted_insertionSort _ l
  have hle : (qsort compar_uli l).Pairwise (· ≤ ·) :=
    List.Pairwise.imp (fun {a b} h => (compar_uli_le_iff a b).mp h) hsorted
  refine ⟨hperm, hle, fun hnd => ?_⟩
  have hnd2 : (qsort compar_uli l).Pairwise (· ≠ ·) := hperm.nodup_iff.mpr hnd
  exact List.Pairwise.imp₂ (fun a b h1 h2 => Nat.lt_of_le_of_ne h1 h2) hle hnd2

/-- C19, as stated, fails: a record with 2 stalls, 2 cows and the position 5 twice is
read with `AC_OK`, and the positions of the resulting case, {5, 5}, are not strictly
ascending. -/
theorem C19_equal_positions_accepted :
    test_case_from_file (read_outcome.value (2, 2)) true
        [read_outcome.value 5, read_outcome.value 5] (some ac_test_case_zero) =
      (ac_rc.AC_OK, some { tc_nstalls := 2, tc_ncows := 2, tc_stalls := [5, 5],
                           tc_result := { lmd := 0 } }) ∧
    ¬ [5, 5].Pairwise (fun a b : Nat => a < b) := by
  refine ⟨by decide, by decide⟩

/-- C19, amended: a test case that `test_case_from_file` produces with `AC_OK` holds the
`nstalls` positions read for the record, rearranged in ascending order (a permutation;
strictly ascending exactly when the record has no position twice), together with the
`nstalls` and `ncows` of the record, where `1 ≤ ncows ≤ nstalls`. -/
theorem C19_parsed_case_invariant (nstalls ncows : Nat) (lines : List (read_outcome Nat))
    (tc0 : Option ac_test_case) (tc : ac_test_case)
    (h : test_case_from_file (read_outcome.value (nstalls, ncows)) true lines tc0 =
      (ac_rc.AC_OK, some tc)) :
    ∃ positions : List Nat, lines.take nstalls = positions.map read_outcome.value ∧
      tc.tc_stalls.Perm positions ∧ tc.tc_stalls.Pairwise (· ≤ ·) ∧
      (tc.tc_stalls.Pairwise (· < ·) ↔ positions.Nodup) ∧
      tc.tc_stalls.length = nstalls ∧ tc.tc_nstalls = nstalls ∧ tc.tc_ncows = ncows ∧
      1 ≤ nstalls ∧ 1 ≤ ncows ∧ ncows ≤ nstalls := by
  simp only [test_case_from_file, Bool.true_eq_false, if_false] at h
  cases hread : read_stalls nstalls lines with
  | error e =>
    rw [hread] at h
    have he := read_stalls_error_ne_ok nstalls lines e hread
    exact absurd (congrArg Prod.fst h) he
  | ok positions =>
    rw [hread] at h
    obtain ⟨hlen, htake⟩ := read_stalls_ok nstalls lines positions hread
    obtain ⟨hperm, hle, hlt⟩ := qsort_compar_uli positions
    cases tc0 with
    | none => simp [ac_test_case_from_parts] at h
    | some t =>
      simp only [ac_test_case_from_parts] at h
      by_cases h1 : nstalls = 0 ∨ ncows = 0
      · rw [if_pos h1] at h
        exact absurd (congrArg Prod.fst h) (fun hx => ac_rc.noConfusion hx)
      · rw [if_neg h1] at h
        by_cases h2 : nstalls < ncows
        · rw [if_pos h2] at h
          exact absurd (congrArg Prod.fst h) (fun hx => ac_rc.noConfusion hx)
        · rw [if_neg h2] at h
          have htc : tc = test_case_from_parts nstalls ncows (qsort compar_uli positions) :=
            (Option.some.inj (congrArg Prod.snd h)).symm
          subst htc
          refine ⟨positions, htake, hperm, hle, ⟨fun hs => ?_, hlt⟩, ?_, rfl, rfl,
            by omega, by omega, by omega⟩
          · have hne : (qsort compar_uli positions).Pairwise (· ≠ ·) :=
              List.Pairwise.imp (fun {a b} hab => Nat.ne_of_lt hab) hs
            exact hperm.nodup_iff.mp hne
          · show (qsort compar_uli positions).length = nstalls
            rw [hperm.length_eq, hlen]

/-- C19 amended, at the record 3 stalls, 2 cows, positions 8, 1, 4: the case holds the
positions {1, 4, 8}. -/
theorem C19_parsed_case_invariant_witness :
    test_case_from_file (read_outcome.value (3, 2)) true
        [read_outcome.value 8, read_outcome.value 1, read_outcome.value 4]
        (some ac_test_case_zero) =
      (ac_rc.AC_OK, some (test_case_from_parts 3 2 [1, 4, 8])) ∧
    ∃ positions : List Nat,
      [read_outcome.value 8, read_outcome.value 1, read_outcome.value 4].take 3 =
        positions.map read_outcome.value ∧
      [1, 4, 8].Perm positions ∧ [1, 4, 8].Pairwise (· ≤ ·) ∧
      ([1, 4, 8].Pairwise (· < ·) ↔ positions.Nodup) ∧
      [1, 4, 8].length = 3 ∧ 3 = 3 ∧ 2 = 2 ∧ 1 ≤ 3 ∧ 1 ≤ 2 ∧ 2 ≤ 3 := by
  have e : test_case_from_file (read_outcome.value (3, 2)) true
      [read_outcome.value 8, read_outcome.value 1, read_outcome.value 4]
      (some ac_test_case_zero) =
        (ac_rc.AC_OK, some (test_case_from_parts 3 2 [1, 4, 8])) := by decide
  exact ⟨e, C19_parsed_case_invariant 3 2 _ _ (test_case_from_parts 3 2 [1, 4, 8]) e⟩

/-! ## Exact characterisation of the solver -/

/-- The greedy scan places no cow when every remaining stall is nearer than `d`. -/
theorem greedy_count_eq_zero (d : Nat) :
    ∀ (l : List Nat) (prev : Nat), (∀ x ∈ l, prev ≤ x ∧ x < ULONG ∧ x - prev < d) →
      greedy_count d prev l = 0 := by
  intro l
  induction l with
  | nil => intro _ _; rfl
  | cons c l ih =>
    intro prev h
    obtain ⟨h1, h2, h3⟩ := h c (List.mem_cons_self _ _)
    unfold greedy_count
    rw [ulong_sub_eq h1 h2, if_pos (by omega)]
    exact ih prev (fun x hx => h x (List.mem_cons_of_mem _ hx))

/-- Every stall is at most the last stall. -/
theorem le_last_stall (P : List Nat) (hP : ValidStalls P) (x : Nat) (hx : x ∈ P) :
    x ≤ P.getD (P.length - 1) 0 := by
  obtain ⟨i, hi, rfl⟩ := List.getElem_of_mem hx
  have hlt : P.length - 1 < P.length := by omega
  rw [List.getD_eq_getElem P 0 hlt]
  by_cases he : i = P.length - 1
  · subst he; exact le_rfl
  · exact Nat.le_of_lt
      (List.pairwise_iff_getElem.mp hP.1 i (P.length - 1) hi hlt (by omega))

/-- For two or more cows no distance beyond the span of the stalls is feasible. -/
theorem can_distribute_le_span (P : List Nat) (hP : ValidStalls P) (k d : Nat)
    (hn : 1 ≤ P.length) (hk : 2 ≤ k)
    (h : can_distribute_cows_at_min_distance P P.length k d = true) :
    d ≤ P.getD (P.length - 1) 0 - P.getD 0 0 := by
  by_contra hgt
  rw [can_distribute_iff P k d hn hk] at h
  have hlast := le_last_stall P hP
  cases P with
  | nil => simp at hn
  | cons a l =>
    obtain ⟨hs, hb⟩ := hP
    rw [List.pairwise_cons] at hs
    simp only [List.getD_cons_zero, List.drop_succ_cons, List.drop_zero] at h hgt
    have hz := greedy_count_eq_zero d l a (fun x hx =>
      ⟨Nat.le_of_lt (hs.1 x hx), hb x (List.mem_cons_of_mem _ hx), by
        have := hlast x (List.mem_cons_of_mem _ hx)
        omega⟩)
    omega

/-- C21: for strictly ascending stalls with last position below `2 ^ 63` and
`2 ≤ k ≤ n`, the feasibility check has a largest feasible distance `LMD`, the solver
returns `min LMD (P[n-1] - 1)` within 64 iterations, the feasibility check holds at the
returned distance, and the returned distance is `LMD` whenever `P[0] ≥ 1`. -/
theorem C21_solver_characterisation (P : List Nat) (hP : ValidStalls P) (k : Nat)
    (hk : 2 ≤ k) (hkn : k ≤ P.length) (hlast : P.getD (P.length - 1) 0 < 2 ^ 63) :
    (can_distribute_cows_at_min_distance P P.length k (feasible_lmd P P.length k) = true ∧
      ∀ d, can_distribute_cows_at_min_distance P P.length k d = true →
        d ≤ feasible_lmd P P.length k) ∧
    (∀ fuel, 64 ≤ fuel → find_largest_min_cow_dist fuel P P.length k =
      some (min (feasible_lmd P P.length k) (P.getD (P.length - 1) 0 - 1))) ∧
    can_distribute_cows_at_min_distance P P.length k
      (min (feasible_lmd P P.length k) (P.getD (P.length - 1) 0 - 1)) = true ∧
    (1 ≤ P.getD 0 0 →
      min (feasible_lmd P P.length k) (P.getD (P.length - 1) 0 - 1) =
        feasible_lmd P P.length k) := by
  have hn : 1 ≤ P.length := by omega
  have hspan := fun d => can_distribute_le_span P hP k d hn hk
  have hzero := can_distribute_zero P k hk hkn
  -- the largest feasible distance
  have hfeas : can_distribute_cows_at_min_distance P P.length k (feasible_lmd P P.length k)
      = true :=
    Nat.findGreatest_spec
      (P := fun d => can_distribute_cows_at_min_distance P P.length k d = true)
      (Nat.zero_le _) hzero
  have hmax : ∀ d, can_distribute_cows_at_min_distance P P.length k d = true →
      d ≤ feasible_lmd P P.length k := by
    intro d hd
    exact Nat.le_findGreatest
      (P := fun d => can_distribute_cows_at_min_distance P P.length k d = true)
      (by have := hspan d hd; omega) hd
  have hlmd_span := hspan _ hfeas
  -- what the solver returns
  obtain ⟨r, hr⟩ := find_largest_min_cow_dist_terminates P P.length k hlast
  obtain ⟨hrf, hrlt, hrs⟩ := find_largest_min_cow_dist_post P hP k hk hkn 64 r (hr 64 le_rfl)
  have hrle := hmax r hrf
  have hreq : r = min (feasible_lmd P P.length k) (P.getD (P.length - 1) 0 - 1) := by
    rcases hrs with hrs | hrs
    · omega
    · have hle : feasible_lmd P P.length k ≤ r := by
        by_contra hlt
        have := can_distribute_mono_dist P hP k (feasible_lmd P P.length k) (r + 1) hn hk
          (by omega) hfeas
        rw [hrs] at this
        exact Bool.noConfusion this
      omega
  refine ⟨⟨hfeas, hmax⟩, fun fuel hf => ?_, ?_, fun h0 => ?_⟩
  · rw [hr fuel hf, hreq]
  · rw [← hreq]; exact hrf
  · omega

/-- C21 at stalls {1, 2, 4, 8, 9} with 3 cows: the largest feasible distance is 3 and
the solver returns 3. -/
theorem C21_solver_characterisation_witness :
    feasible_lmd [1, 2, 4, 8, 9] 5 3 = 3 ∧
    find_largest_min_cow_dist 64 [1, 2, 4, 8, 9] 5 3 = some (min 3 (9 - 1)) := by
  have hl : feasible_lmd [1, 2, 4, 8, 9] 5 3 = 3 := by decide
  have h := (C21_solver_characterisation [1, 2, 4, 8, 9] (by decide) 3 (by decide)
    (by decide) (by decide)).2.1 64 le_rfl
  have h2 : find_largest_min_cow_dist 64 [1, 2, 4, 8, 9] 5 3 =
      some (min (feasible_lmd [1, 2, 4, 8, 9] 5 3) (9 - 1)) := h
  rw [hl] at h2
  exact ⟨hl, h2⟩

end Aggrocow
